import Mathlib

/-!
Verification development for the Belgian legislation ingestion pipeline
(Justel fetcher/parser, pipeline orchestrator, record consolidator).

Strings are modelled as `List Char` (one element per UTF-16 code unit of the
original JavaScript string; all inputs of interest are in the BMP, where the
two notions coincide).  Each definition is a shallow embedding of the
corresponding TypeScript function, translated clause by clause from the
source; JavaScript regular-expression passes are embedded as explicit
left-to-right scanners that mirror the (deterministic) behaviour of the
particular patterns used by the code.
-/

/-- JavaScript whitespace (the class `\s`, also the set removed by
`String.prototype.trim`): tab, LF, VT, FF, CR, space, NBSP, and the
Unicode space separators recognised by ECMAScript. -/
def isJsWs (c : Char) : Bool :=
  c.toNat = 9 || c.toNat = 10 || c.toNat = 11 || c.toNat = 12 || c.toNat = 13 ||
  c.toNat = 32 || c.toNat = 160 || c.toNat = 0x1680 ||
  (0x2000 ≤ c.toNat && c.toNat ≤ 0x200a) ||
  c.toNat = 0x2028 || c.toNat = 0x2029 || c.toNat = 0x202f ||
  c.toNat = 0x205f || c.toNat = 0x3000 || c.toNat = 0xfeff

/-- The apostrophe character (U+0027), used by the Justel anchor markup. -/
def squote : Char := Char.ofNat 39

/-- `String.prototype.trim`: drop JS whitespace from both ends. -/
def jsTrim (l : List Char) : List Char :=
  ((l.dropWhile isJsWs).reverse.dropWhile isJsWs).reverse

/-- Does `pat` occur at the head of `l` (case-sensitive literal match)? -/
def litAt : List Char → List Char → Bool
  | [], _ => true
  | _ :: _, [] => false
  | p :: ps, c :: cs => p = c && litAt ps cs

/-- Does `pat` occur at the head of `l`, comparing case-insensitively
(the JS `i` flag; `pat` is given in lower case)? -/
def litCiAt : List Char → List Char → Bool
  | [], _ => true
  | _ :: _, [] => false
  | p :: ps, c :: cs => (c = p || c.toLower = p) && litCiAt ps cs

/-- `String.prototype.includes pat`: `pat` occurs somewhere in `l`. -/
def containsSub (l pat : List Char) : Bool :=
  match l with
  | [] => pat = []
  | _ :: cs => litAt pat l || containsSub cs pat

/-- `String.prototype.indexOf pat`: index of the first occurrence, if any. -/
def firstIdx (l pat : List Char) : Option Nat :=
  match l with
  | [] => if pat = [] then some 0 else none
  | _ :: cs =>
    if litAt pat l then some 0
    else (firstIdx cs pat).map (· + 1)

/-- One pass of collapsing runs of JS whitespace to a single space
(the global replace `\s+` → one space); the flag records whether the
previous character belonged to a whitespace run. -/
def wsCollapseAux : List Char → Bool → List Char
  | [], _ => []
  | c :: cs, inRun =>
    if isJsWs c then
      if inRun then wsCollapseAux cs true else ' ' :: wsCollapseAux cs true
    else c :: wsCollapseAux cs false

/-- `text.replace(/\s+/g, ' ')`. -/
def wsCollapseAll (l : List Char) : List Char := wsCollapseAux l false

/-- `normalizeWhitespace` from `build-db.ts`:
`text.replace(/\s+/g, ' ').trim()`. -/
def normalizeWhitespace (l : List Char) : List Char := jsTrim (wsCollapseAll l)

/-- A provision record as read from a seed file (`ProvisionSeed` in
`build-db.ts`); `title` and `chapter` are optional, and a present but
empty title is distinct from an absent one (JS falsiness). -/
structure ProvisionSeed where
  provision_ref : List Char
  chapter : Option (List Char)
  /-- the source field is named `section`, a reserved word here -/
  sectionNo : List Char
  title : Option (List Char)
  content : List Char
  deriving DecidableEq, Repr

/-- JS `a || b` on two optional strings: `a` wins unless it is absent or
empty (both falsy). -/
def jsOrStr (a b : Option (List Char)) : Option (List Char) :=
  match a with
  | some s => if s = [] then b else some s
  | none => b

/-- Lookup in the insertion-ordered association list modelling the JS `Map`. -/
def mapFind (m : List (List Char × ProvisionSeed)) (k : List Char) :
    Option ProvisionSeed :=
  (m.find? (fun kv => kv.1 = k)).map (·.2)

/-- `Map.prototype.set`: update in place when the key exists (keeping its
position), append otherwise — JS `Map` iteration order is insertion order. -/
def mapSet (m : List (List Char × ProvisionSeed)) (k : List Char)
    (v : ProvisionSeed) : List (List Char × ProvisionSeed) :=
  if m.any (fun kv => kv.1 = k) then
    m.map (fun kv => if kv.1 = k then (k, v) else kv)
  else m ++ [(k, v)]

/-- The loop body of `dedupeProvisions`: group by trimmed reference; a later
duplicate replaces the stored entry only when its whitespace-normalized
content is strictly longer, in which case its title falls back to the stored
entry's title when it lacks one. -/
def dedupeStep (m : List (List Char × ProvisionSeed)) (p : ProvisionSeed) :
    List (List Char × ProvisionSeed) :=
  let ref := jsTrim p.provision_ref
  match mapFind m ref with
  | none => mapSet m ref { p with provision_ref := ref }
  | some existing =>
    if (normalizeWhitespace existing.content).length <
        (normalizeWhitespace p.content).length then
      mapSet m ref
        { p with provision_ref := ref, title := jsOrStr p.title existing.title }
    else m

/-- `dedupeProvisions` from `build-db.ts`. -/
def dedupeProvisions (ps : List ProvisionSeed) : List ProvisionSeed :=
  (ps.foldl dedupeStep []).map (·.2)

/-- ISO-8859-1 decoding: each byte becomes the Unicode code point of the
same value (the `TextDecoder('iso-8859-1')` used by the fetcher). -/
def latin1Decode (bytes : List Nat) : List Char :=
  bytes.map (fun b => Char.ofNat (b % 256))

/-- Outcome of one HTTP attempt: a successful response body (raw bytes), or
a failure (non-success status or transport error) carrying its message. -/
inductive AttemptResult where
  | ok (bytes : List Nat)
  | fail (e : List Char)
  deriving DecidableEq, Repr

/-- The retry loop of `rateLimitedFetch`, over an oracle giving the outcome
of each attempt (1-based).  Returns the overall result together with the
list of backoff waits (in ms) performed between attempts.  `fuel` is the
number of attempts still allowed including the current one; the `fuel = 0`
case corresponds to the unreachable trailing `throw` of the source. -/
def fetchRetryGo (oracle : Nat → AttemptResult) :
    Nat → Nat → (Except (List Char) (List Char)) × List Nat
  | _, 0 => (Except.error [], [])
  | attempt, fuel + 1 =>
    match oracle attempt with
    | AttemptResult.ok bytes => (Except.ok (latin1Decode bytes), [])
    | AttemptResult.fail e =>
      if fuel = 0 then (Except.error e, [])
      else
        let rest := fetchRetryGo oracle (attempt + 1) fuel
        (rest.1, attempt * 1000 :: rest.2)

/-- `rateLimitedFetch`'s retry behaviour: `maxRetries = 3`, attempts
numbered from 1. -/
def rateLimitedFetchRetry (oracle : Nat → AttemptResult) :
    (Except (List Char) (List Char)) × List Nat :=
  fetchRetryGo oracle 1 3

/-- The observable instants of one `rateLimitedFetch` call's rate-limiting
prologue: `tEntry` is `Date.now()` at entry, `tResume` the instant after the
conditional sleep, `tStamp` the second `Date.now()` stored into
`lastRequestTime` immediately before the request is issued (the request
initiation instant — the fetch call follows synchronously). -/
structure LimiterCall where
  tEntry : Int
  tResume : Int
  tStamp : Int
  deriving DecidableEq, Repr

/-- The sleep the limiter requests: `RATE_LIMIT_MS - elapsed` when
`elapsed < RATE_LIMIT_MS (= 500)`, nothing otherwise. -/
def waitNeeded (last tEntry : Int) : Int :=
  if tEntry - last < 500 then 500 - (tEntry - last) else 0

/-- Validity of one call w.r.t. the stored timestamp `last`: the clock is
monotone (`last ≤ tEntry`), `setTimeout` suspends for at least the requested
duration, and the second `Date.now()` is not earlier than the resume. -/
def limiterCallOk (last : Int) (c : LimiterCall) : Prop :=
  last ≤ c.tEntry ∧
  c.tEntry + waitNeeded last c.tEntry ≤ c.tResume ∧
  c.tResume ≤ c.tStamp

/-- Validity of a serialized run of calls: each call sees the timestamp
stored by the previous one (the shared `lastRequestTime`). -/
def limiterRunOk : Int → List LimiterCall → Prop
  | _, [] => True
  | last, c :: cs => limiterCallOk last c ∧ limiterRunOk c.tStamp cs

/-! ### Markup cleaning (`cleanArticleHtml`)

Each global `String.replace` pass of the source is embedded as a fueled
left-to-right scanner: at every position the pattern either matches (the
match is replaced and scanning resumes after it) or the character is kept.
All the patterns involved are deterministic (their greedy character classes
are each followed by a character excluded from the class), so this scanner
computes exactly the JS replacement. -/

/-- Generic scanner: `m l` returns `(replacement, matchLength)` when the
pattern matches at the head of `l`.  Fuel is the length of the scanned
list; every step consumes at least one character. -/
def scanRepl (m : List Char → Option (List Char × Nat)) :
    Nat → List Char → List Char
  | 0, l => l
  | _ + 1, [] => []
  | fuel + 1, c :: cs =>
    match m (c :: cs) with
    | some (repl, k) => repl ++ scanRepl m fuel (cs.drop (k - 1))
    | none => c :: scanRepl m fuel cs

/-- One full global-replace pass. -/
def runRepl (m : List Char → Option (List Char × Nat)) (l : List Char) :
    List Char :=
  scanRepl m l.length l

/-- `<A[^>]*>` (case-insensitive), replaced by nothing. -/
def matchOpenA : List Char → Option (List Char × Nat)
  | '<' :: c :: rest =>
    if c = 'A' || c = 'a' then
      let body := rest.takeWhile (fun x => x ≠ '>')
      if body.length < rest.length then some ([], body.length + 3) else none
    else none
  | _ => none

/-- `</A>` (case-insensitive), replaced by nothing. -/
def matchCloseA : List Char → Option (List Char × Nat)
  | '<' :: '/' :: c :: '>' :: _ =>
    if c = 'A' || c = 'a' then some ([], 4) else none
  | _ => none

/-- `<BR\s*\/?>` (case-insensitive), replaced by a newline. -/
def matchBr : List Char → Option (List Char × Nat)
  | '<' :: b :: r :: rest =>
    if (b = 'B' || b = 'b') && (r = 'R' || r = 'r') then
      let ws := rest.takeWhile isJsWs
      match rest.dropWhile isJsWs with
      | '/' :: '>' :: _ => some (['\n'], ws.length + 5)
      | '>' :: _ => some (['\n'], ws.length + 4)
      | _ => none
    else none
  | _ => none

/-- `<\/?h[1-6][^>]*>` (case-insensitive), replaced by nothing. -/
def matchHeading : List Char → Option (List Char × Nat)
  | '<' :: rest =>
    let (slashLen, rest2) :=
      match rest with
      | '/' :: r => (1, r)
      | r => (0, r)
    match rest2 with
    | h :: d :: r3 =>
      if (h = 'H' || h = 'h') && ('1' ≤ d && d ≤ '6') then
        let body := r3.takeWhile (fun x => x ≠ '>')
        if body.length < r3.length then
          some ([], slashLen + body.length + 4)
        else none
      else none
    | _ => none
  | _ => none

/-- `<[^>]+>`, replaced by nothing. -/
def matchAnyTag : List Char → Option (List Char × Nat)
  | '<' :: rest =>
    let body := rest.takeWhile (fun x => x ≠ '>')
    if body.length ≠ 0 && body.length < rest.length then
      some ([], body.length + 2)
    else none
  | _ => none

/-- Literal (case-sensitive) pattern, fixed replacement. -/
def matchLit (pat repl l : List Char) : Option (List Char × Nat) :=
  if litAt pat l then some (repl, pat.length) else none

/-- `parseInt` on a nonempty all-digit string. -/
def digitsToNat (ds : List Char) : Nat :=
  ds.foldl (fun a c => a * 10 + (c.toNat - 48)) 0

/-- `String.fromCharCode`: the argument is reduced mod 2^16; lone
surrogates (which cannot be represented as a scalar value) are approximated
by the null character — they never arise in the inputs of interest. -/
def jsFromCharCode (n : Nat) : Char := Char.ofNat (n % 65536)

/-- `&#\d+;`, replaced by `String.fromCharCode` of the decimal value. -/
def matchNumEntity : List Char → Option (List Char × Nat)
  | '&' :: '#' :: rest =>
    let ds := rest.takeWhile Char.isDigit
    if ds.length = 0 then none
    else
      match rest.drop ds.length with
      | ';' :: _ => some ([jsFromCharCode (digitsToNat ds)], ds.length + 3)
      | _ => none
  | _ => none

/-- The named-entity passes of `cleanArticleHtml`, in source order. -/
def entityTable : List (List Char × List Char) :=
  [(r"&nbsp;".toList, r" ".toList),
   (r"&amp;".toList, r"&".toList),
   (r"&lt;".toList, r"<".toList),
   (r"&gt;".toList, r">".toList),
   (r"&quot;".toList, "\"".toList),
   (r"&eacute;".toList, r"é".toList),
   (r"&egrave;".toList, r"è".toList),
   (r"&agrave;".toList, r"à".toList),
   (r"&acirc;".toList, r"â".toList),
   (r"&ecirc;".toList, r"ê".toList),
   (r"&icirc;".toList, r"î".toList),
   (r"&ocirc;".toList, r"ô".toList),
   (r"&ucirc;".toList, r"û".toList),
   (r"&ugrave;".toList, r"ù".toList),
   (r"&ccedil;".toList, r"ç".toList),
   (r"&laquo;".toList, r"«".toList),
   (r"&raquo;".toList, r"»".toList)]

/-- All entity-decoding passes (named entities in order, then numeric
character references). -/
def decodeEntities (l : List Char) : List Char :=
  runRepl matchNumEntity
    (entityTable.foldl (fun acc pr => runRepl (matchLit pr.1 pr.2) acc) l)

/-- Horizontal whitespace: the class `[ \t]`. -/
def isSpTab (c : Char) : Bool := c = ' ' || c = '\t'

/-- `text.replace(/[ \t]+/g, ' ')` with a run flag. -/
def spTabCollapseAux : List Char → Bool → List Char
  | [], _ => []
  | c :: cs, inRun =>
    if isSpTab c then
      if inRun then spTabCollapseAux cs true else ' ' :: spTabCollapseAux cs true
    else c :: spTabCollapseAux cs false

/-- `text.replace(/[ \t]+/g, ' ')`. -/
def spTabCollapse (l : List Char) : List Char := spTabCollapseAux l false

/-- `text.replace(/\n\s*\n/g, '\n')`: a newline whose following maximal
whitespace run contains another newline is merged with the last such
newline; scanning resumes after the match.  Fuel is the input length. -/
def collapseBlankGo : Nat → List Char → List Char
  | 0, l => l
  | _ + 1, [] => []
  | fuel + 1, c :: cs =>
    if c = '\n' && (cs.takeWhile isJsWs).contains '\n' then
      let p := cs.takeWhile isJsWs
      let keep := (p.reverse.takeWhile (fun x => x ≠ '\n')).reverse
      '\n' :: collapseBlankGo fuel (keep ++ cs.dropWhile isJsWs)
    else c :: collapseBlankGo fuel cs

/-- `text.replace(/\n\s*\n/g, '\n')`. -/
def collapseBlank (l : List Char) : List Char := collapseBlankGo l.length l

/-- `text.split('\n').map(l => l.trim()).filter(Boolean).join('\n')`. -/
def trimJoinLines (l : List Char) : List Char :=
  [ '\n' ].intercalate (((l.splitOn '\n').map jsTrim).filter
    (fun s => !s.isEmpty))

/-- `cleanArticleHtml` from the Justel parser, pass for pass. -/
def cleanArticleHtml (html : List Char) : List Char :=
  trimJoinLines (collapseBlank (spTabCollapse (decodeEntities
    (runRepl matchAnyTag (runRepl matchHeading (runRepl matchBr
      (runRepl matchCloseA (runRepl matchOpenA html))))))))

/-! ### Article splitting (`parseArticles`) -/

/-- One `<A NAME='Art.X'>` anchor found by the splitter: its reference
token and character offset. -/
structure AnchorMatch where
  ref : List Char
  startIndex : Nat
  deriving DecidableEq, Repr

def nameWord : List Char := "name".toList
def artDotWord : List Char := "art.".toList
def artToken : List Char := "art".toList
def articleWord : List Char := "article".toList
def articleSpace : List Char := "Article ".toList
def article1erTitle : List Char := "Article 1er".toList
def ref1erLower : List Char := "1er".toList
def ref1erUpper : List Char := "1ER".toList
def erWord : List Char := "er".toList
def chapitreWord : List Char := "chapitre".toList
def hoofdstukWord : List Char := "hoofdstuk".toList
def dotSpace : List Char := ". ".toList

/-- `<A\s+NAME='Art\.([^']+)'[^>]*>` (case-insensitive) at the head of the
list: returns the captured reference and the total match length. -/
def matchArtAnchor : List Char → Option (List Char × Nat)
  | '<' :: c :: rest =>
    if c = 'A' || c = 'a' then
      let ws := rest.takeWhile isJsWs
      if ws.length = 0 then none
      else
        let r1 := rest.drop ws.length
        if litCiAt nameWord r1 then
          match r1.drop 4 with
          | eq :: q1 :: r2 =>
            if eq = '=' && q1 = squote && litCiAt artDotWord r2 then
              let r3 := r2.drop 4
              let grp := r3.takeWhile (fun x => x ≠ squote)
              if grp.length = 0 then none
              else
                match r3.drop grp.length with
                | q2 :: r4 =>
                  if q2 = squote then
                    let body := r4.takeWhile (fun x => x ≠ '>')
                    if body.length < r4.length then
                      some (grp, ws.length + grp.length + body.length + 14)
                    else none
                  else none
                | [] => none
            else none
          | _ => none
        else none
    else none
  | _ => none

/-- The `exec` loop collecting all anchor matches with their offsets
(scanning resumes after each match). -/
def scanAnchorsGo : Nat → List Char → Nat → List AnchorMatch
  | 0, _, _ => []
  | _ + 1, [], _ => []
  | fuel + 1, c :: cs, pos =>
    match matchArtAnchor (c :: cs) with
    | some (ref, k) =>
      ⟨ref, pos⟩ :: scanAnchorsGo fuel (cs.drop (k - 1)) (pos + k)
    | none => scanAnchorsGo fuel cs (pos + 1)

def scanAnchors (l : List Char) : List AnchorMatch := scanAnchorsGo l.length l 0

/-- The class `[IVXLCDM\d]` under the `i` flag. -/
def chapterClassChar (c : Char) : Bool :=
  c.isDigit || c.toLower = 'i' || c.toLower = 'v' || c.toLower = 'x' ||
  c.toLower = 'l' || c.toLower = 'c' || c.toLower = 'd' || c.toLower = 'm'

/-- `(?:CHAPITRE|HOOFDSTUK)\s+([IVXLCDM\d]+(?:er)?)\.\s*-\s*([^<\n]+)`
(case-insensitive) at the head of the list, returning the two captures.
Shrinking the greedy roman-numeral run can never help (the following
`er`/`.` both start with characters outside the class), so no backtracking
is modelled. -/
def matchChapterAt (l : List Char) : Option (List Char × List Char) :=
  let afterWord : Option (List Char) :=
    if litCiAt chapitreWord l then some (l.drop 8)
    else if litCiAt hoofdstukWord l then some (l.drop 9)
    else none
  match afterWord with
  | none => none
  | some r1 =>
    let ws := r1.takeWhile isJsWs
    if ws.length = 0 then none
    else
      let r2 := r1.drop ws.length
      let run := r2.takeWhile chapterClassChar
      if run.length = 0 then none
      else
        let r3 := r2.drop run.length
        let (grp1, r4) :=
          if litCiAt erWord r3 then (run ++ r3.take 2, r3.drop 2) else (run, r3)
        match r4 with
        | '.' :: r5 =>
          (match r5.dropWhile isJsWs with
           | '-' :: r6 =>
             let grp2 := (r6.dropWhile isJsWs).takeWhile
               (fun x => x ≠ '<' && x ≠ '\n')
             if grp2.length = 0 then none else some (grp1, grp2)
           | _ => none)
        | _ => none

/-- First chapter-heading match anywhere in the list (`String.match`
without the global flag). -/
def findChapterGo : Nat → List Char → Option (List Char × List Char)
  | 0, _ => none
  | _ + 1, [] => none
  | fuel + 1, c :: cs =>
    match matchChapterAt (c :: cs) with
    | some g => some g
    | none => findChapterGo fuel cs

/-- The chapter value derived from the first heading match:
`` `${m[1]}. ${m[2].trim()}` ``. -/
def chapterSearch (l : List Char) : Option (List Char) :=
  (findChapterGo l.length l).map (fun g => g.1 ++ dotSpace ++ jsTrim g.2)

/-- An article record produced by the splitter (`ParsedProvision`). -/
structure ParsedProvision where
  provision_ref : List Char
  /-- the source field is named `section` -/
  sectionNo : List Char
  title : List Char
  content : List Char
  chapter : Option (List Char)
  deriving DecidableEq, Repr

/-- `displayRef.replace(/er$/i, '')`. -/
def stripErSuffix (l : List Char) : List Char :=
  if 2 ≤ l.length && litCiAt erWord (l.drop (l.length - 2)) then
    l.take (l.length - 2)
  else l

/-- JS `substring(a, b)` with `a ≤ b`. -/
def substrRange (l : List Char) (a b : Nat) : List Char := (l.take b).drop a

/-- The per-anchor loop of `parseArticles`: `prevStart` is the previous
anchor's offset (0 for the first iteration), `curCh` the forward-carried
chapter value. -/
def parseArticlesGo (html : List Char) :
    List AnchorMatch → Nat → Option (List Char) → List ParsedProvision
  | [], _, _ => []
  | m :: rest, prevStart, curCh =>
    let nextStart :=
      match rest with
      | m2 :: _ => m2.startIndex
      | [] => html.length
    let chapterBefore := substrRange html prevStart m.startIndex
    let ch1 :=
      match chapterSearch chapterBefore with
      | some c => some c
      | none => curCh
    let articleHtml := substrRange html m.startIndex nextStart
    let ch2 :=
      match chapterSearch articleHtml with
      | some c => some c
      | none => ch1
    let text := cleanArticleHtml articleHtml
    let tailOut := parseArticlesGo html rest m.startIndex ch2
    if jsTrim text = [] then tailOut
    else
      { provision_ref := artToken ++ (m.ref.map Char.toLower).filter (fun x => x ≠ '.')
        sectionNo := stripErSuffix m.ref
        title :=
          if m.ref = ref1erLower || m.ref = ref1erUpper then article1erTitle
          else articleSpace ++ m.ref
        content := jsTrim text
        chapter := ch2 } :: tailOut

/-- Does the fallback boundary pattern `(?:Article|Art\.)\s+\d+`
(case-insensitive) match at the head of the list? -/
def fallbackBoundaryAt (l : List Char) : Bool :=
  let after : Option (List Char) :=
    if litCiAt articleWord l then some (l.drop 7)
    else if litCiAt artDotWord l then some (l.drop 4)
    else none
  match after with
  | none => false
  | some r1 =>
    let ws := r1.takeWhile isJsWs
    match r1.dropWhile isJsWs with
    | d :: _ => ws.length ≠ 0 && d.isDigit
    | [] => false

/-- `cleanText.split(/(?=(?:Article|Art\.)\s+\d+)/i)`: cut before every
boundary position except position 0 (JS produces no leading empty piece
for a zero-width match at the start). -/
def splitBoundariesGo : Nat → List Char → List Char → List (List Char)
  | 0, acc, l => [acc.reverse ++ l]
  | _ + 1, acc, [] => [acc.reverse]
  | fuel + 1, acc, c :: cs =>
    if acc ≠ [] && fallbackBoundaryAt (c :: cs) then
      acc.reverse :: splitBoundariesGo fuel [c] cs
    else splitBoundariesGo fuel (c :: acc) cs

/-- `^(?:Article|Art\.)\s+(\d+(?:er)?)` (case-insensitive): the captured
number token of a fallback part, if it matches. -/
def fallbackArtMatch (part : List Char) : Option (List Char) :=
  let after : Option (List Char) :=
    if litCiAt articleWord part then some (part.drop 7)
    else if litCiAt artDotWord part then some (part.drop 4)
    else none
  match after with
  | none => none
  | some r1 =>
    let ws := r1.takeWhile isJsWs
    if ws.length = 0 then none
    else
      let r2 := r1.drop ws.length
      let ds := r2.takeWhile Char.isDigit
      if ds.length = 0 then none
      else
        let r3 := r2.drop ds.length
        if litCiAt erWord r3 then some (ds ++ r3.take 2) else some ds

/-- `parseArticlesFallback`: plain-text splitting, no chapter tracking. -/
def parseArticlesFallback (html : List Char) : List ParsedProvision :=
  let cleanText := cleanArticleHtml html
  let parts := splitBoundariesGo cleanText.length [] cleanText
  parts.filterMap (fun part =>
    (fallbackArtMatch part).map (fun num =>
      { provision_ref := artToken ++ num.map Char.toLower
        sectionNo := stripErSuffix num
        title := articleSpace ++ num
        content := jsTrim part
        chapter := none }))

/-- `parseArticles`: anchor-based primary strategy, plain-text fallback
when no anchors are found. -/
def parseArticles (html : List Char) : List ParsedProvision :=
  match scanAnchors html with
  | [] => parseArticlesFallback html
  | ms => parseArticlesGo html ms 0 none

/-! ### Justel URLs (`buildJustelUrl` and the index decomposition) -/

/-- Decimal representation of a natural number (JS template interpolation
of a number); fuel-based so that it reduces in the kernel. -/
def natToDecAux : Nat → Nat → List Char
  | 0, _ => []
  | fuel + 1, n =>
    if n < 10 then [Nat.digitChar n]
    else natToDecAux fuel (n / 10) ++ [Nat.digitChar (n % 10)]

/-- `` `${n}` `` for a natural number `n`. -/
def natToDec (n : Nat) : List Char := natToDecAux (n + 1) n

/-- The two Justel language variants: `loi` (French) and `wet` (Dutch). -/
inductive JLang where
  | fr
  | nl
  deriving DecidableEq, Repr

def baseUrl : List Char := "http://www.ejustice.just.fgov.be".toList
def eliSlash : List Char := "/eli/".toList
def loiSeg : List Char := "loi/".toList
def wetSeg : List Char := "wet/".toList
def justelTail : List Char := "/justel".toList
def eliLoiWord : List Char := "/eli/loi/".toList
def eliWetWord : List Char := "/eli/wet/".toList
def httpWord : List Char := "http".toList

def langSeg : JLang → List Char
  | JLang.fr => "loi".toList
  | JLang.nl => "wet".toList

/-- `buildJustelUrl` from the fetcher:
`` `${BASE_URL}/eli/${loi|wet}/${year}/${month}/${day}/${numac}/justel` ``. -/
def buildJustelUrl (year : Nat) (month day numac : List Char) (lang : JLang) :
    List Char :=
  baseUrl ++ eliSlash ++ langSeg lang ++ ['/'] ++ natToDec year ++ ['/'] ++
    month ++ ['/'] ++ day ++ ['/'] ++ numac ++ justelTail

/-- The groups captured from a canonical content URL. -/
structure UrlParts where
  year : Nat
  month : List Char
  day : List Char
  numac : List Char
  deriving DecidableEq, Repr

/-- Exactly `k` digits at the head. -/
def takeDigits (l : List Char) (k : Nat) : Option (List Char × List Char) :=
  let ds := l.take k
  if ds.length = k && ds.all Char.isDigit then some (ds, l.drop k) else none

/-- `\/eli\/(?:loi|wet)\/(\d{4})\/(\d{2})\/(\d{2})\/(\d+)\/justel` at the
head of the list (each fixed-width or greedy piece is followed by a
character outside its class, so the match is deterministic). -/
def matchJustelUrlAt (l : List Char) : Option UrlParts :=
  if litAt eliSlash l then
    let r1 := l.drop 5
    let r2opt : Option (List Char) :=
      if litAt loiSeg r1 then some (r1.drop 4)
      else if litAt wetSeg r1 then some (r1.drop 4)
      else none
    match r2opt with
    | none => none
    | some r2 =>
      match takeDigits r2 4 with
      | none => none
      | some (y4, r3) =>
        match r3 with
        | '/' :: r4 =>
          (match takeDigits r4 2 with
           | none => none
           | some (mm, r5) =>
             match r5 with
             | '/' :: r6 =>
               (match takeDigits r6 2 with
                | none => none
                | some (dd, r7) =>
                  match r7 with
                  | '/' :: r8 =>
                    let ds := r8.takeWhile Char.isDigit
                    if ds.length = 0 then none
                    else if litAt justelTail (r8.drop ds.length) then
                      some ⟨digitsToNat y4, mm, dd, ds⟩
                    else none
                  | _ => none)
             | _ => none)
        | _ => none
  else none

/-- First match of the content-URL pattern anywhere in the string
(`String.match` without the global flag). -/
def findJustelUrlGo : Nat → List Char → Option UrlParts
  | 0, _ => none
  | _ + 1, [] => none
  | fuel + 1, c :: cs =>
    match matchJustelUrlAt (c :: cs) with
    | some p => some p
    | none => findJustelUrlGo fuel cs

/-- The index extractor's URL decomposition
(`href.match(/\/eli\/(?:loi|wet)\/(\d{4})\/(\d{2})\/(\d{2})\/(\d+)\/justel/)`). -/
def extractUrlParts (l : List Char) : Option UrlParts :=
  findJustelUrlGo l.length l

/-! ### DOM model and the year-index extractor (`parseYearIndex`)

`parseYearIndex` walks a parsed DOM (jsdom).  The DOM is modelled as a
tree of elements (lower-cased tag names) and text nodes; `textContent`,
attribute lookup, `querySelectorAll` in document order, and
`closest('tr')` are embedded directly. -/

inductive DomNode where
  | elem (tag : List Char) (attrs : List (List Char × List Char))
      (children : List DomNode)
  | text (s : List Char)

mutual

/-- `Node.textContent`: concatenation of all descendant text. -/
def textContent : DomNode → List Char
  | DomNode.text s => s
  | DomNode.elem _ _ children => textContentList children

def textContentList : List DomNode → List Char
  | [] => []
  | n :: ns => textContent n ++ textContentList ns

end

/-- `getAttribute`: first attribute with the given name. -/
def getAttr (attrs : List (List Char × List Char)) (name : List Char) :
    Option (List Char) :=
  (attrs.find? (fun a => a.1 = name)).map (·.2)

def aTag : List Char := "a".toList
def trTag : List Char := "tr".toList
def tdTag : List Char := "td".toList
def hrefAttr : List Char := "href".toList

/-- An anchor element found by `querySelectorAll('a[href]')`, together
with its ancestor chain (nearest first) for the `closest('tr')` lookup. -/
structure AnchorCtx where
  attrs : List (List Char × List Char)
  ancestors : List DomNode

mutual

/-- `querySelectorAll('a[href]')` in document (pre-)order, keeping each
anchor's ancestor chain. -/
def collectAnchors : DomNode → List DomNode → List AnchorCtx
  | DomNode.text _, _ => []
  | DomNode.elem tag attrs children, stack =>
    (if tag = aTag && (getAttr attrs hrefAttr).isSome then
      [⟨attrs, stack⟩] else []) ++
    collectAnchorsList children (DomNode.elem tag attrs children :: stack)

def collectAnchorsList : List DomNode → List DomNode → List AnchorCtx
  | [], _ => []
  | n :: ns, stack => collectAnchors n stack ++ collectAnchorsList ns stack

end

mutual

/-- All `td` descendants-or-self in document order. -/
def tdsIn : DomNode → List DomNode
  | DomNode.text _ => []
  | DomNode.elem tag attrs children =>
    (if tag = tdTag then [DomNode.elem tag attrs children] else []) ++
    tdsInList children

def tdsInList : List DomNode → List DomNode
  | [] => []
  | n :: ns => tdsIn n ++ tdsInList ns

end

/-- `tr.querySelectorAll('td')` (descendants of the row, in order). -/
def collectTds : DomNode → List DomNode
  | DomNode.text _ => []
  | DomNode.elem _ _ children => tdsInList children

/-- `link.closest('tr')`: the link is an `a`, never a `tr`, so this is the
nearest `tr` ancestor (the source's extra upward loop finds the same). -/
def closestTr (stack : List DomNode) : Option DomNode :=
  stack.find? (fun n =>
    match n with
    | DomNode.elem tag _ _ => tag = trTag
    | DomNode.text _ => false)

/-- An index-page record (`LawIndexEntry`). -/
structure LawIndexEntry where
  index : Nat
  title : List Char
  date : List Char
  year : Nat
  month : List Char
  day : List Char
  numac : List Char
  justelUrl : List Char
  source : List Char
  publicationDate : List Char
  deriving DecidableEq, Repr

def pubMarkerFr : List Char := "Publié le".toList
def pubMarkerNl : List Char := "Gepubliceerd op".toList
def sourceMarkerFr : List Char := "Source :".toList
def sourceMarkerNl : List Char := "Bron :".toList
def germanMarkFr : List Char := "Traduction allemande".toList
def germanMarkNl : List Char := "Duitse vertaling".toList

def pubMarker : JLang → List Char
  | JLang.fr => pubMarkerFr
  | JLang.nl => pubMarkerNl

def sourceMarker : JLang → List Char
  | JLang.fr => sourceMarkerFr
  | JLang.nl => sourceMarkerNl

/-- `title.replace(/\(\d+\)\s*$/, '')`: strip one trailing parenthetical
numeric footnote (plus trailing whitespace). -/
def stripTrailingFootnote (l : List Char) : List Char :=
  let r := (l.reverse).dropWhile isJsWs
  match r with
  | ')' :: r2 =>
    let ds := r2.takeWhile Char.isDigit
    if ds.length = 0 then l
    else
      match r2.drop ds.length with
      | '(' :: r3 => r3.reverse
      | _ => l
  | _ => l

/-- Title of one row: text before the language-specific publication marker
when that marker occurs at a positive index, else the whole cell text; then
whitespace-normalized, footnote-stripped and trimmed. -/
def extractTitle (fullText marker : List Char) : List Char :=
  let t :=
    match firstIdx fullText marker with
    | some i => if 0 < i then jsTrim (fullText.take i) else jsTrim fullText
    | none => jsTrim fullText
  jsTrim (stripTrailingFootnote (wsCollapseAll t))

/-- Source ministry: text after the language-specific source marker up to
the end of line. -/
def extractSource (fullText marker : List Char) : List Char :=
  match firstIdx fullText marker with
  | some i =>
    let afterSource := jsTrim (fullText.drop (i + marker.length))
    match firstIdx afterSource ['\n'] with
    | some j => if 0 < j then jsTrim (afterSource.take j) else jsTrim afterSource
    | none => jsTrim afterSource
  | none => []

/-- `(\d{2}-\d{2}-\d{4})` at the head of the list. -/
def matchPubDateAt (l : List Char) : Option (List Char) :=
  match takeDigits l 2 with
  | none => none
  | some (a, r1) =>
    match r1 with
    | '-' :: r2 =>
      (match takeDigits r2 2 with
       | none => none
       | some (b, r3) =>
         match r3 with
         | '-' :: r4 =>
           (match takeDigits r4 4 with
            | none => none
            | some (c, _) => some (a ++ ['-'] ++ b ++ ['-'] ++ c))
         | _ => none)
    | _ => none

/-- First publication-date match anywhere in the cell text. -/
def findPubDateGo : Nat → List Char → Option (List Char)
  | 0, _ => none
  | _ + 1, [] => none
  | fuel + 1, c :: cs =>
    match matchPubDateAt (c :: cs) with
    | some d => some d
    | none => findPubDateGo fuel cs

def findPubDate (l : List Char) : Option (List Char) :=
  findPubDateGo l.length l

/-- The pre-filter on anchors: the href contains `/justel` and an
`/eli/loi/` or `/eli/wet/` segment. -/
def justelPrefilter (href : List Char) : Bool :=
  containsSub href justelTail &&
    (containsSub href eliLoiWord || containsSub href eliWetWord)

/-- A `LawIndexEntry` minus its sequence number. -/
structure EntryCore where
  title : List Char
  date : List Char
  year : Nat
  month : List Char
  day : List Char
  numac : List Char
  justelUrl : List Char
  source : List Char
  publicationDate : List Char
  deriving DecidableEq, Repr

/-- The per-anchor body of `parseYearIndex`, in source order: URL
decomposition (skip on failure), enclosing-row lookup (skip when absent),
title/source/publication-date extraction from the second cell (empty when
the row has fewer than two cells), the German-translation filter, and URL
absolutization. -/
def entryCore (lang : JLang) (a : AnchorCtx) : Option EntryCore :=
  let href := (getAttr a.attrs hrefAttr).getD []
  match extractUrlParts href with
  | none => none
  | some parts =>
    match closestTr a.ancestors with
    | none => none
    | some tr =>
      let tds := collectTds tr
      let cellData :=
        match tds.get? 1 with
        | some cell =>
          let fullText := textContent cell
          (extractTitle fullText (pubMarker lang),
           extractSource fullText (sourceMarker lang),
           (findPubDate fullText).getD [])
        | none => ([], [], [])
      let title := cellData.1
      if containsSub title germanMarkFr || containsSub title germanMarkNl then
        none
      else
        let fullUrl :=
          if litAt httpWord href then jsTrim href else jsTrim (baseUrl ++ href)
        some
          { title := title
            date := natToDec parts.year ++ ['-'] ++ parts.month ++ ['-'] ++
              parts.day
            year := parts.year
            month := parts.month
            day := parts.day
            numac := parts.numac
            justelUrl := fullUrl
            source := cellData.2.1
            publicationDate := cellData.2.2 }

/-- Attach a 1-based sequence number (`entries.length + 1` at push time). -/
def coreToEntry (i : Nat) (c : EntryCore) : LawIndexEntry :=
  { index := i
    title := c.title
    date := c.date
    year := c.year
    month := c.month
    day := c.day
    numac := c.numac
    justelUrl := c.justelUrl
    source := c.source
    publicationDate := c.publicationDate }

/-- The anchors surviving the pre-filter, in document order. -/
def justelAnchors (doc : DomNode) : List AnchorCtx :=
  (collectAnchors doc []).filter
    (fun a => justelPrefilter ((getAttr a.attrs hrefAttr).getD []))

/-- `parseYearIndex` over the DOM model. -/
def parseYearIndexDom (doc : DomNode) (lang : JLang) : List LawIndexEntry :=
  (justelAnchors doc).foldl
    (fun entries a =>
      match entryCore lang a with
      | none => entries
      | some c => entries ++ [coreToEntry (entries.length + 1) c])
    []

/-- The anchors that contribute an entry, in document order. -/
def eligibleCores (doc : DomNode) (lang : JLang) : List EntryCore :=
  (justelAnchors doc).filterMap (entryCore lang)

/-! ### The Dutch-content stage tally (`runDutchContent`) -/

/-- What one loop iteration of `runDutchContent` observes for an entry:
either fetch+parse succeeded with some number of provisions, or the fetch
threw and `String(error)` is the given text. -/
inductive NlOutcome where
  | fetched (provisionCount : Nat)
  | fetchFailed (errText : List Char)
  deriving DecidableEq, Repr

/-- The orchestrator's counters for the Dutch stage. -/
structure NlStats where
  processed : Nat
  failed : Nat
  skipped : Nat
  deriving DecidableEq, Repr

def four04 : List Char := "404".toList

/-- One iteration of the Dutch-content loop: zero provisions are skipped;
a successful parse is processed; a thrown fetch error increments `failed`
and, when `String(error)` contains `'404'`, additionally `skipped`. -/
def dutchStep (s : NlStats) (o : NlOutcome) : NlStats :=
  match o with
  | NlOutcome.fetched 0 => { s with skipped := s.skipped + 1 }
  | NlOutcome.fetched (_ + 1) => { s with processed := s.processed + 1 }
  | NlOutcome.fetchFailed msg =>
    let s1 := { s with failed := s.failed + 1 }
    if containsSub msg four04 then { s1 with skipped := s1.skipped + 1 }
    else s1

/-- The final counters of `runDutchContent` over a list of per-entry
outcomes. -/
def runDutchContentTally (outcomes : List NlOutcome) : NlStats :=
  outcomes.foldl dutchStep ⟨0, 0, 0⟩

/-- `String(new Error(msg))` is `"Error: " ++ msg`. -/
def errorToString (msg : List Char) : List Char :=
  "Error: ".toList ++ msg

/-! ### Specification-side helpers (for stating properties) -/

/-- Deduplication keeping the first occurrence, in first-seen order — the
order/completeness behaviour the consolidator is specified to have. -/
def firstSeen : List (List Char) → List (List Char)
  | [] => []
  | r :: rs => r :: (firstSeen rs).filter (fun x => x ≠ r)

/-- Number a list of entry cores consecutively starting at `k`. -/
def entriesNumberedFrom : Nat → List EntryCore → List LawIndexEntry
  | _, [] => []
  | k, c :: cs => coreToEntry k c :: entriesNumberedFrom (k + 1) cs

/-! ### Concrete inputs used by counterexamples and witnesses -/

/-- A document-body fragment with anchors `Art.1er`, `Art.2`, `Art.3` and
exactly one chapter heading, placed between the `Art.1er` and `Art.2`
anchors (inside article 1's span). -/
def cex1Frag : List Char :=
  ("<A NAME=".toList ++ [squote] ++ "Art.1er".toList ++ [squote] ++ ">".toList)
  ++ "Art. 1er. Premier texte<BR>CHAPITRE II. - Dispositions generales<BR>".toList
  ++ ("<A NAME=".toList ++ [squote] ++ "Art.2".toList ++ [squote] ++ ">".toList)
  ++ "Art. 2. Deuxieme texte<BR>".toList
  ++ ("<A NAME=".toList ++ [squote] ++ "Art.3".toList ++ [squote] ++ ">".toList)
  ++ "Art. 3. Troisieme texte".toList

def chap1Label : List Char := "II. Dispositions generales".toList

def cex1Prov1 : ParsedProvision :=
  { provision_ref := "art1er".toList
    sectionNo := "1".toList
    title := "Article 1er".toList
    content := "Art. 1er. Premier texte\nCHAPITRE II. - Dispositions generales".toList
    chapter := some chap1Label }

def cex1Prov2 : ParsedProvision :=
  { provision_ref := "art2".toList
    sectionNo := "2".toList
    title := "Article 2".toList
    content := "Art. 2. Deuxieme texte".toList
    chapter := some chap1Label }

def cex1Prov3 : ParsedProvision :=
  { provision_ref := "art3".toList
    sectionNo := "3".toList
    title := "Article 3".toList
    content := "Art. 3. Troisieme texte".toList
    chapter := some chap1Label }

/-- Entity text that materializes a tag only after one cleaning pass. -/
def cex2Input : List Char := "&lt;a&gt;x".toList

/-- A witness input whose cleaned form contains no `<` and no `&`. -/
def wit2Input : List Char := "a  b<BR>c &eacute;".toList

/-- `String(error)` for a law whose Dutch fetch fails with HTTP 404 on
every attempt. -/
def cex3Err : List Char :=
  errorToString
    ("HTTP 404 for http://www.ejustice.just.fgov.be/eli/wet/2023/01/02/2023012345/justel".toList)

/-- First-seen article: no title, longer content. -/
def cex4First : ProvisionSeed :=
  { provision_ref := "art1".toList
    chapter := none
    sectionNo := "1".toList
    title := none
    content := "xx".toList }

/-- Later duplicate: has a title, shorter content — it is merged away and
its title is not adopted. -/
def cex4Second : ProvisionSeed :=
  { provision_ref := " art1 ".toList
    chapter := none
    sectionNo := "1b".toList
    title := some ("T".toList)
    content := "y".toList }

/-- Witness pair for the pairwise merge rule (longer later duplicate). -/
def wit4First : ProvisionSeed :=
  { provision_ref := "art7".toList
    chapter := none
    sectionNo := "7".toList
    title := some ("Article 7".toList)
    content := "ab".toList }

def wit4Second : ProvisionSeed :=
  { provision_ref := "art7".toList
    chapter := none
    sectionNo := "7b".toList
    title := none
    content := "abcdef".toList }

/-- Witness pair with equal whitespace-normalized content lengths. -/
def wit10First : ProvisionSeed :=
  { provision_ref := "art2".toList
    chapter := none
    sectionNo := "2".toList
    title := some ("T2".toList)
    content := "abc".toList }

def wit10Second : ProvisionSeed :=
  { provision_ref := "art2 ".toList
    chapter := some ("C".toList)
    sectionNo := "2b".toList
    title := some ("T2b".toList)
    content := " xyz ".toList }

/-- Witness oracle: two failures then a success. -/
def wit5Oracle : Nat → AttemptResult := fun i =>
  if i = 1 then AttemptResult.fail ("HTTP 500 for u".toList)
  else if i = 2 then AttemptResult.fail ("HTTP 502 for u".toList)
  else AttemptResult.ok [72, 233]

/-- Witness run for the rate limiter: two back-to-back calls. -/
def wit6Calls : List LimiterCall := [⟨0, 500, 500⟩, ⟨600, 1000, 1000⟩]

def wit7Month : List Char := "05".toList
def wit7Day : List Char := "17".toList
def wit7Numac : List Char := "2023042583".toList

/-- A Justel anchor with a decomposable canonical content link. -/
def testAnchorA : DomNode :=
  DomNode.elem aTag [(hrefAttr, "/eli/loi/2023/01/02/2023012345/justel".toList)]
    [DomNode.text ("Justel".toList)]

/-- A well-formed index row enclosing `testAnchorA`. -/
def testRowA : DomNode :=
  DomNode.elem trTag []
    [DomNode.elem tdTag [] [DomNode.text ("1".toList)],
     DomNode.elem tdTag []
       [DomNode.text ("2 JANVIER 2023. - Loi sur les tests (1)".toList)],
     DomNode.elem tdTag [] [testAnchorA]]

/-- An index page with one well-formed row. -/
def witDoc : DomNode :=
  DomNode.elem ("html".toList) []
    [DomNode.elem ("table".toList) [] [testRowA]]

/-- The entry extracted from `witDoc`. -/
def witEntry : LawIndexEntry :=
  { index := 1
    title := "2 JANVIER 2023. - Loi sur les tests".toList
    date := "2023-01-02".toList
    year := 2023
    month := "01".toList
    day := "02".toList
    numac := "2023012345".toList
    justelUrl := "http://www.ejustice.just.fgov.be/eli/loi/2023/01/02/2023012345/justel".toList
    source := []
    publicationDate := [] }

/-- An index page whose only anchor has a decomposable link but no
enclosing table row. -/
def cex9Doc : DomNode :=
  DomNode.elem ("html".toList) [] [testAnchorA]

def cex9Href : List Char := "/eli/loi/2023/01/02/2023012345/justel".toList

/-- No suffix of this prefix can begin a canonical-URL match, whatever
follows it (used to walk the scanner across the fixed base URL). -/
def cannotStartEli (xs : List Char) : Bool :=
  if 5 ≤ xs.length then !(litAt eliSlash xs)
  else !(litAt (eliSlash.take xs.length) xs)

/-- `cannotStartEli` holds of every suffix. -/
def allSuffixesClean : List Char → Bool
  | [] => true
  | c :: cs => cannotStartEli (c :: cs) && allSuffixesClean cs

/-- Normal form of horizontal whitespace after `[ \\t]+` collapsing: no
tab, and no two adjacent space/tab characters. -/
def spacedOk : List Char → Bool
  | [] => true
  | c :: cs =>
    if c = '\t' then false
    else if c = ' ' then
      (match cs with
       | d :: _ => !(isSpTab d)
       | [] => true) && spacedOk cs
    else spacedOk cs

/-- The head, if any, is not a space or tab. -/
def headNotSpTab : List Char → Bool
  | [] => true
  | c :: _ => !(isSpTab c)

/-- The head, if any, is not JS whitespace. -/
def headNotWs : List Char → Bool
  | [] => true
  | c :: _ => !(isJsWs c)

/-- Every newline is immediately followed by a non-whitespace character
(or is final), so the blank-line collapse finds nothing to merge. -/
def nlOk : List Char → Bool
  | [] => true
  | [_] => true
  | c :: d :: cs => (if c = '\n' then !(isJsWs d) else true) && nlOk (d :: cs)

/-! ## Theorems -/

set_option maxRecDepth 40000 in
/-- C1 (counterexample): on a fragment with anchors `Art.1er`, `Art.2`,
`Art.3` and exactly one chapter heading between the `Art.1er` and `Art.2`
anchors, the FIRST provision also carries the chapter label, contrary to
the claim that it carries none. -/
theorem c1_first_article_has_chapter :
    (parseArticles cex1Frag).length = 3 ∧
    ((parseArticles cex1Frag).map (fun p => p.chapter)).head? =
      some (some chap1Label) := by
  decide

set_option maxRecDepth 40000 in
/-- C1 (amended): on such a fragment all three provisions carry the
chapter label — the second and third through the forward-carried chapter
state, and the first because the heading lies inside the first article's
span, which `parseArticles` also scans. -/
theorem c1_chapter_assignment :
    parseArticles cex1Frag = [cex1Prov1, cex1Prov2, cex1Prov3] := by
  decide

/-- C3: a Dutch-content entry whose fetch fails with HTTP 404 on every
attempt is counted in BOTH the failed and the skipped tallies — `failed`
is incremented unconditionally before the 404 test — whereas the claim
(and the stage's own summary line, which reports `skipped` as "no Dutch
version") requires it to be counted as skipped only. -/
theorem c3_404_double_counted :
    containsSub cex3Err four04 = true ∧
    runDutchContentTally [NlOutcome.fetchFailed cex3Err] =
      { processed := 0, failed := 1, skipped := 1 } := by
  decide

/-- C5: the transport's retry loop makes at most 3 attempts (the result
depends only on the outcomes of attempts 1–3), waits `n * 1000` ms after
failed attempt `n`, returns the decoded body of the first successful
attempt, and propagates the last failure unmodified when all three
attempts fail. -/
theorem c5_retry_policy (oracle : Nat → AttemptResult) :
    (∀ o2 : Nat → AttemptResult, o2 1 = oracle 1 → o2 2 = oracle 2 →
      o2 3 = oracle 3 → rateLimitedFetchRetry o2 = rateLimitedFetchRetry oracle) ∧
    (∀ b, oracle 1 = AttemptResult.ok b →
      rateLimitedFetchRetry oracle = (Except.ok (latin1Decode b), [])) ∧
    (∀ e b, oracle 1 = AttemptResult.fail e → oracle 2 = AttemptResult.ok b →
      rateLimitedFetchRetry oracle = (Except.ok (latin1Decode b), [1000])) ∧
    (∀ e1 e2 b, oracle 1 = AttemptResult.fail e1 →
      oracle 2 = AttemptResult.fail e2 → oracle 3 = AttemptResult.ok b →
      rateLimitedFetchRetry oracle = (Except.ok (latin1Decode b), [1000, 2000])) ∧
    (∀ e1 e2 e3, oracle 1 = AttemptResult.fail e1 →
      oracle 2 = AttemptResult.fail e2 → oracle 3 = AttemptResult.fail e3 →
      rateLimitedFetchRetry oracle = (Except.error e3, [1000, 2000])) := by
  refine ⟨?_, ?_, ?_, ?_, ?_⟩
  · intro o2 h1 h2 h3
    simp only [rateLimitedFetchRetry, fetchRetryGo, h1, h2, h3]
  · intro b h1
    simp [rateLimitedFetchRetry, fetchRetryGo, h1]
  · intro e b h1 h2
    simp [rateLimitedFetchRetry, fetchRetryGo, h1, h2]
  · intro e1 e2 b h1 h2 h3
    simp [rateLimitedFetchRetry, fetchRetryGo, h1, h2, h3]
  · intro e1 e2 e3 h1 h2 h3
    simp [rateLimitedFetchRetry, fetchRetryGo, h1, h2, h3]

/-- C5 (witness): an oracle that fails twice and succeeds on the third
attempt yields the decoded third body after waits of 1000 then 2000 ms. -/
theorem c5_retry_policy_witness :
    rateLimitedFetchRetry wit5Oracle =
      (Except.ok (latin1Decode [72, 233]), [1000, 2000]) :=
  (c5_retry_policy wit5Oracle).2.2.2.1
    ("HTTP 500 for u".toList) ("HTTP 502 for u".toList) [72, 233]
    (by decide) (by decide) (by decide)

/-- One limiter call advances the stored timestamp by at least 500 ms. -/
theorem limiterCall_spacing {last : Int} {c : LimiterCall}
    (h : limiterCallOk last c) : last + 500 ≤ c.tStamp := by
  obtain ⟨h1, h2, h3⟩ := h
  unfold waitNeeded at h2
  by_cases h5 : c.tEntry - last < 500
  · rw [if_pos h5] at h2
    omega
  · rw [if_neg h5] at h2
    omega

/-- C6: in a serialized run with a monotone clock and at-least sleeps, any
two consecutive request initiations (timestamp updates immediately before
the fetch is issued) are at least 500 ms apart. -/
theorem c6_min_spacing (last : Int) (cs : List LimiterCall)
    (hrun : limiterRunOk last cs) :
    ∀ i ci cj, cs.get? i = some ci → cs.get? (i + 1) = some cj →
      ci.tStamp + 500 ≤ cj.tStamp := by
  induction cs generalizing last with
  | nil => intro i ci cj hi; simp at hi
  | cons c rest ih =>
    obtain ⟨hc, hrest⟩ := hrun
    intro i ci cj hi hj
    cases i with
    | zero =>
      simp only [List.get?] at hi hj
      cases hi
      cases rest with
      | nil => simp at hj
      | cons c2 rest2 =>
        simp only [List.get?] at hj
        cases hj
        exact limiterCall_spacing hrest.1
    | succ n =>
      simp only [List.get?] at hi hj
      exact ih c.tStamp hrest n ci cj hi hj

/-- C6 (witness): a concrete valid two-call run in which the second call
arrives 100 ms after the first stamp and is delayed to 500 ms after it. -/
theorem c6_min_spacing_witness :
    limiterRunOk 0 wit6Calls ∧
    (⟨0, 500, 500⟩ : LimiterCall).tStamp + 500 ≤
      (⟨600, 1000, 1000⟩ : LimiterCall).tStamp := by
  have hrun : limiterRunOk 0 wit6Calls := by
    refine ⟨⟨by norm_num, ?_, by norm_num⟩, ⟨by norm_num, ?_, by norm_num⟩, trivial⟩
    · unfold waitNeeded; norm_num
    · unfold waitNeeded; norm_num
  refine ⟨hrun, ?_⟩
  exact c6_min_spacing 0 wit6Calls hrun 0 _ _ rfl rfl

/-- The merge rule of `dedupeProvisions` on a pair sharing a (trimmed)
reference: the later article wins only with strictly longer
whitespace-normalized content, and then its missing title falls back to
the stored title; otherwise the first-seen article is kept unchanged
(apart from reference trimming). -/
theorem dedupe_pair (p q : ProvisionSeed)
    (h : jsTrim q.provision_ref = jsTrim p.provision_ref) :
    dedupeProvisions [p, q] =
      if (normalizeWhitespace p.content).length <
          (normalizeWhitespace q.content).length then
        [{ q with provision_ref := jsTrim p.provision_ref,
                  title := jsOrStr q.title p.title }]
      else [{ p with provision_ref := jsTrim p.provision_ref }] := by
  have h1 : dedupeStep [] p =
      [(jsTrim p.provision_ref, { p with provision_ref := jsTrim p.provision_ref })] := by
    simp [dedupeStep, mapFind, mapSet]
  have h2 : dedupeStep
      [(jsTrim p.provision_ref, { p with provision_ref := jsTrim p.provision_ref })] q =
      if (normalizeWhitespace p.content).length <
          (normalizeWhitespace q.content).length then
        [(jsTrim p.provision_ref,
          { q with provision_ref := jsTrim p.provision_ref, title := jsOrStr q.title p.title })]
      else
        [(jsTrim p.provision_ref, { p with provision_ref := jsTrim p.provision_ref })] := by
    unfold dedupeStep
    rw [h]
    simp [mapFind, mapSet, List.find?]
  simp only [dedupeProvisions, List.foldl, h1, h2]
  split <;> simp

/-- C4 (counterexample): when the first-seen article is kept (the later
duplicate's normalized content is not longer), its missing title is NOT
filled in from the discarded duplicate's title, contrary to the claim's
unconditional title fallback for every pair sharing a reference. -/
theorem c4_no_fallback_when_first_kept :
    jsTrim cex4Second.provision_ref = jsTrim cex4First.provision_ref ∧
    (normalizeWhitespace cex4Second.content).length <
      (normalizeWhitespace cex4First.content).length ∧
    cex4First.title = none ∧
    cex4Second.title = some ("T".toList) ∧
    dedupeProvisions [cex4First, cex4Second] = [cex4First] := by
  decide

/-- C10: when two articles share a trimmed reference and the later one's
whitespace-normalized content is not strictly longer (in particular on
ties), the first-seen article is kept with its own title and content, and
the duplicate is merged away; only strictly longer content replaces. -/
theorem c10_tie_keeps_first (p q : ProvisionSeed)
    (href : jsTrim q.provision_ref = jsTrim p.provision_ref)
    (hlen : (normalizeWhitespace q.content).length ≤
      (normalizeWhitespace p.content).length) :
    dedupeProvisions [p, q] = [{ p with provision_ref := jsTrim p.provision_ref }] := by
  rw [dedupe_pair p q href, if_neg (by omega)]

/-- C10 (witness): a concrete equal-normalized-length pair (`"abc"` vs
`" xyz "`, both of normalized length 3): the first article survives intact. -/
theorem c10_tie_keeps_first_witness :
    jsTrim wit10Second.provision_ref = jsTrim wit10First.provision_ref ∧
    (normalizeWhitespace wit10Second.content).length =
      (normalizeWhitespace wit10First.content).length ∧
    dedupeProvisions [wit10First, wit10Second] =
      [{ wit10First with provision_ref := jsTrim wit10First.provision_ref }] :=
  ⟨by decide, by decide,
    c10_tie_keeps_first wit10First wit10Second (by decide) (by decide)⟩

/-- The index loop is the enumeration of its eligible anchors: folding
the per-anchor body onto an accumulator appends the numbered eligible
cores, numbers continuing from the accumulator's length. -/
theorem parseYearIndexDom_foldl (lang : JLang) (as : List AnchorCtx) :
    ∀ acc : List LawIndexEntry,
      as.foldl (fun entries a =>
        match entryCore lang a with
        | none => entries
        | some c => entries ++ [coreToEntry (entries.length + 1) c]) acc =
      acc ++ entriesNumberedFrom (acc.length + 1) (as.filterMap (entryCore lang)) := by
  induction as with
  | nil => intro acc; simp [entriesNumberedFrom]
  | cons a as ih =>
    intro acc
    simp only [List.foldl, List.filterMap]
    cases hc : entryCore lang a with
    | none => simpa using ih acc
    | some c =>
      rw [ih (acc ++ [coreToEntry (acc.length + 1) c])]
      simp [entriesNumberedFrom, List.length_append]

theorem entriesNumberedFrom_map_index (cs : List EntryCore) :
    ∀ k, (entriesNumberedFrom k cs).map (fun e => e.index) =
      List.range' k cs.length := by
  induction cs with
  | nil => intro k; simp [entriesNumberedFrom]
  | cons c cs ih =>
    intro k
    simp [entriesNumberedFrom, coreToEntry, List.range', ih]

/-- C9 (amended): for any index page, parseYearIndex returns exactly one
entry per eligible anchor (pre-filter passed, link decomposable, enclosing
table row present, title not a German-translation notice), in
anchor-encounter order, with sequence numbers exactly 1..N. -/
theorem c9_entries_numbered (doc : DomNode) (lang : JLang) :
    parseYearIndexDom doc lang =
      entriesNumberedFrom 1 (eligibleCores doc lang) ∧
    (parseYearIndexDom doc lang).map (fun e => e.index) =
      List.range' 1 (eligibleCores doc lang).length ∧
    (parseYearIndexDom doc lang).length = (eligibleCores doc lang).length := by
  have h0 : parseYearIndexDom doc lang =
      entriesNumberedFrom 1 (eligibleCores doc lang) := by
    unfold parseYearIndexDom eligibleCores
    simpa using parseYearIndexDom_foldl lang (justelAnchors doc) []
  refine ⟨h0, ?_, ?_⟩
  · rw [h0, entriesNumberedFrom_map_index]
  · rw [h0]
    have : ∀ k (cs : List EntryCore), (entriesNumberedFrom k cs).length = cs.length := by
      intro k cs
      induction cs generalizing k with
      | nil => simp [entriesNumberedFrom]
      | cons c cs ih => simp [entriesNumberedFrom, ih]
    exact this 1 _

set_option maxRecDepth 40000 in
/-- C9 (counterexample): a page with one anchor whose link decomposes but
which has no enclosing table row (N = 1, M = 0) yields zero entries, not
N = 1 — anchors outside a table row are skipped. -/
theorem c9_row_required :
    (justelAnchors cex9Doc).length = 1 ∧
    (extractUrlParts cex9Href).isSome = true ∧
    parseYearIndexDom cex9Doc JLang.fr = [] := by
  decide

theorem entryCore_title_ok {lang : JLang} {a : AnchorCtx} {c : EntryCore}
    (h : entryCore lang a = some c) :
    containsSub c.title germanMarkFr = false ∧
    containsSub c.title germanMarkNl = false := by
  simp only [entryCore] at h
  split at h
  · exact absurd h (by simp)
  · split at h
    · exact absurd h (by simp)
    · split at h
      · exact absurd h (by simp)
      · rename_i hguard
        simp only [Bool.or_eq_true, not_or, Bool.not_eq_true] at hguard
        cases h
        exact ⟨hguard.1, hguard.2⟩

theorem mem_entriesNumberedFrom {e : LawIndexEntry} :
    ∀ (k : Nat) (cs : List EntryCore), e ∈ entriesNumberedFrom k cs →
      ∃ c ∈ cs, e.title = c.title := by
  intro k cs
  induction cs generalizing k with
  | nil => simp [entriesNumberedFrom]
  | cons c cs ih =>
    intro he
    simp only [entriesNumberedFrom, List.mem_cons] at he
    rcases he with he | he
    · exact ⟨c, List.mem_cons_self c cs, by rw [he]; rfl⟩
    · obtain ⟨c2, hc2, ht⟩ := ih (k + 1) he
      exact ⟨c2, List.mem_cons_of_mem c hc2, ht⟩

/-- C8: no entry produced by the index extractor has a title containing a
German-translation marker (either language's marker, and independently of
the language selector). -/
theorem c8_no_german (doc : DomNode) (lang : JLang) :
    ∀ e ∈ parseYearIndexDom doc lang,
      containsSub e.title germanMarkFr = false ∧
      containsSub e.title germanMarkNl = false := by
  intro e he
  have h0 : parseYearIndexDom doc lang =
      entriesNumberedFrom 1 (eligibleCores doc lang) := by
    unfold parseYearIndexDom eligibleCores
    simpa using parseYearIndexDom_foldl lang (justelAnchors doc) []
  rw [h0] at he
  obtain ⟨c, hc, ht⟩ := mem_entriesNumberedFrom 1 _ he
  obtain ⟨a, _, ha⟩ := List.mem_filterMap.mp hc
  rw [ht]
  exact entryCore_title_ok ha

set_option maxRecDepth 40000 in
/-- C8 (witness): a concrete page yielding one entry, whose title is
marker-free. -/
theorem c8_no_german_witness :
    witEntry ∈ parseYearIndexDom witDoc JLang.fr ∧
    containsSub witEntry.title germanMarkFr = false ∧
    containsSub witEntry.title germanMarkNl = false :=
  ⟨by decide, (c8_no_german witDoc JLang.fr witEntry (by decide)).1,
    (c8_no_german witDoc JLang.fr witEntry (by decide)).2⟩

/-- Keys of the consolidation map: membership as a Bool `any`. -/
theorem keyMem_any (m : List (List Char × ProvisionSeed)) (k : List Char) :
    (m.any (fun kv => kv.1 = k)) = true ↔ k ∈ m.map (fun kv => kv.1) := by
  rw [List.any_eq_true]
  constructor
  · rintro ⟨kv, hkv, he⟩
    exact List.mem_map.mpr ⟨kv, hkv, by simpa using he⟩
  · intro hk
    obtain ⟨kv, hkv, he⟩ := List.mem_map.mp hk
    exact ⟨kv, hkv, by simpa using he⟩

theorem mapSet_keys_mem (m : List (List Char × ProvisionSeed)) (k : List Char)
    (v : ProvisionSeed) (hk : k ∈ m.map (fun kv => kv.1)) :
    (mapSet m k v).map (fun kv => kv.1) = m.map (fun kv => kv.1) := by
  unfold mapSet
  rw [if_pos ((keyMem_any m k).mpr hk)]
  rw [List.map_map]
  refine List.map_congr_left ?_
  intro kv _
  simp only [Function.comp]
  split
  · rename_i he; rw [he]
  · rfl

theorem mapSet_keys_not_mem (m : List (List Char × ProvisionSeed)) (k : List Char)
    (v : ProvisionSeed) (hk : k ∉ m.map (fun kv => kv.1)) :
    (mapSet m k v).map (fun kv => kv.1) = m.map (fun kv => kv.1) ++ [k] := by
  unfold mapSet
  rw [if_neg (fun hc => hk ((keyMem_any m k).mp hc))]
  simp

theorem mapFind_none_iff (m : List (List Char × ProvisionSeed)) (k : List Char) :
    mapFind m k = none ↔ k ∉ m.map (fun kv => kv.1) := by
  unfold mapFind
  constructor
  · intro hf hk
    obtain ⟨kv, hkv, he⟩ := List.mem_map.mp hk
    have := List.find?_eq_none.mp (by
      cases hfind : List.find? (fun kv => decide (kv.1 = k)) m with
      | none => rfl
      | some x => rw [hfind] at hf; exact Option.noConfusion hf) kv hkv
    exact this (by simpa using he)
  · intro hk
    rw [List.find?_eq_none.mpr]
    · rfl
    · intro kv hkv hc
      exact hk (List.mem_map.mpr ⟨kv, hkv, by simpa using hc⟩)

theorem dedupeStep_keys (m : List (List Char × ProvisionSeed)) (p : ProvisionSeed) :
    (dedupeStep m p).map (fun kv => kv.1) =
      (if jsTrim p.provision_ref ∈ m.map (fun kv => kv.1) then
        m.map (fun kv => kv.1)
      else m.map (fun kv => kv.1) ++ [jsTrim p.provision_ref]) := by
  simp only [dedupeStep]
  cases hf : mapFind m (jsTrim p.provision_ref) with
  | none =>
    have hk := (mapFind_none_iff m _).mp hf
    rw [mapSet_keys_not_mem _ _ _ hk, if_neg hk]
  | some ex =>
    have hk : jsTrim p.provision_ref ∈ m.map (fun kv => kv.1) := by
      by_contra hc
      rw [(mapFind_none_iff m _).mpr hc] at hf
      exact Option.noConfusion hf
    rw [if_pos hk]
    split
    · rename_i heq
      exact absurd heq (by simp)
    · rename_i existing heq
      obtain rfl : ex = existing := by injection heq
      split
      · exact mapSet_keys_mem _ _ _ hk
      · rfl

theorem dedupe_foldl_keys (ps : List ProvisionSeed) :
    ∀ m : List (List Char × ProvisionSeed),
      (ps.foldl dedupeStep m).map (fun kv => kv.1) =
        (ps.map (fun p => jsTrim p.provision_ref)).foldl
          (fun ks r => if r ∈ ks then ks else ks ++ [r])
          (m.map (fun kv => kv.1)) := by
  induction ps with
  | nil => intro m; rfl
  | cons p ps ih =>
    intro m
    simp only [List.foldl, List.map]
    rw [ih (dedupeStep m p), dedupeStep_keys]

theorem firstSeen_filter (q : List Char → Bool) :
    ∀ rs : List (List Char), firstSeen (rs.filter q) = (firstSeen rs).filter q := by
  intro rs
  induction rs with
  | nil => rfl
  | cons r rs ih =>
    by_cases hq : q r = true
    · rw [List.filter_cons, if_pos hq]
      show firstSeen (r :: rs.filter q) = (firstSeen (r :: rs)).filter q
      simp only [firstSeen]
      rw [List.filter_cons, if_pos hq, ih, List.filter_filter, List.filter_filter]
      congr 1
      refine List.filter_congr ?_
      intro a _
      by_cases ha : a = r <;> simp [ha, hq]
    · rw [List.filter_cons, if_neg hq, ih]
      show (firstSeen rs).filter q = (firstSeen (r :: rs)).filter q
      simp only [firstSeen]
      rw [List.filter_cons, if_neg hq, List.filter_filter]
      refine List.filter_congr ?_
      intro a _
      by_cases ha : a = r
      · subst ha
        rw [Bool.not_eq_true] at hq
        simp [hq]
      · simp [ha]

theorem foldl_insert_firstSeen :
    ∀ (rs ks : List (List Char)),
      rs.foldl (fun ks r => if r ∈ ks then ks else ks ++ [r]) ks =
        ks ++ (firstSeen rs).filter (fun r => r ∉ ks) := by
  intro rs
  induction rs with
  | nil => intro ks; simp [firstSeen]
  | cons r rest ih =>
    intro ks
    simp only [List.foldl]
    by_cases hr : r ∈ ks
    · rw [if_pos hr, ih ks]
      simp only [firstSeen]
      rw [List.filter_cons]
      rw [if_neg (by simp [hr])]
      rw [List.filter_filter]
      congr 1
      refine (List.filter_congr ?_).symm
      intro a _
      by_cases h2 : a = r
      · subst h2; simp [hr]
      · simp [h2]
    · rw [if_neg hr, ih (ks ++ [r])]
      simp only [firstSeen]
      rw [List.filter_cons]
      rw [if_pos (by simp [hr])]
      rw [List.filter_filter, List.append_assoc]
      congr 1
      show [r] ++ _ = _
      rw [List.singleton_append]
      congr 1
      refine List.filter_congr ?_
      intro a _
      by_cases h1 : a ∈ ks <;> by_cases h2 : a = r <;>
        simp [h1, h2, List.mem_append]

theorem mapSet_aligned (m : List (List Char × ProvisionSeed)) (k : List Char)
    (v : ProvisionSeed) (hm : ∀ kv ∈ m, kv.2.provision_ref = kv.1)
    (hv : v.provision_ref = k) :
    ∀ kv ∈ mapSet m k v, kv.2.provision_ref = kv.1 := by
  intro kv hkv
  unfold mapSet at hkv
  split at hkv
  · obtain ⟨kv0, hkv0, he⟩ := List.mem_map.mp hkv
    by_cases h0 : kv0.1 = k
    · rw [if_pos h0] at he
      rw [← he]
      exact hv
    · rw [if_neg h0] at he
      rw [← he]
      exact hm kv0 hkv0
  · rcases List.mem_append.mp hkv with h | h
    · exact hm kv h
    · rw [List.mem_singleton.mp h]
      exact hv

theorem dedupeStep_aligned (m : List (List Char × ProvisionSeed))
    (p : ProvisionSeed) (hm : ∀ kv ∈ m, kv.2.provision_ref = kv.1) :
    ∀ kv ∈ dedupeStep m p, kv.2.provision_ref = kv.1 := by
  simp only [dedupeStep]
  split
  · exact mapSet_aligned m _ _ hm rfl
  · split
    · exact mapSet_aligned m _ _ hm rfl
    · exact hm

theorem dedupe_foldl_aligned (ps : List ProvisionSeed) :
    ∀ m, (∀ kv ∈ m, kv.2.provision_ref = kv.1) →
      ∀ kv ∈ ps.foldl dedupeStep m, kv.2.provision_ref = kv.1 := by
  induction ps with
  | nil => intro m hm; exact hm
  | cons p ps ih =>
    intro m hm
    exact ih (dedupeStep m p) (dedupeStep_aligned m p hm)

/-- C4 (amended): consolidation groups by trimmed reference — the output's
references are exactly the distinct trimmed input references in first-seen
order (so no reference is lost and order is preserved) — and on a pair
sharing a reference it keeps the later article only when its
whitespace-normalized content is strictly longer, in which case (and only
then) the kept article's missing title falls back to the discarded one's;
when the first-seen article is kept, it is kept unchanged. -/
theorem c4_consolidation (ps : List ProvisionSeed) (p q : ProvisionSeed)
    (h : jsTrim q.provision_ref = jsTrim p.provision_ref) :
    (dedupeProvisions ps).map (fun x => x.provision_ref) =
      firstSeen (ps.map (fun x => jsTrim x.provision_ref)) ∧
    dedupeProvisions [p, q] =
      (if (normalizeWhitespace p.content).length <
          (normalizeWhitespace q.content).length then
        [{ q with provision_ref := jsTrim p.provision_ref,
                  title := jsOrStr q.title p.title }]
      else [{ p with provision_ref := jsTrim p.provision_ref }]) := by
  constructor
  · have halign := dedupe_foldl_aligned ps [] (by intro kv hkv; simp at hkv)
    have hkeys := dedupe_foldl_keys ps []
    simp only [List.map_nil] at hkeys
    rw [foldl_insert_firstSeen _ []] at hkeys
    simp only [List.nil_append] at hkeys
    calc (dedupeProvisions ps).map (fun x => x.provision_ref)
        = (ps.foldl dedupeStep []).map (fun kv => kv.2.provision_ref) := by
          simp [dedupeProvisions, List.map_map, Function.comp]
      _ = (ps.foldl dedupeStep []).map (fun kv => kv.1) :=
          List.map_congr_left (fun kv hkv => halign kv hkv)
      _ = firstSeen (ps.map (fun x => jsTrim x.provision_ref)) := by
          rw [hkeys]
          refine (List.filter_congr ?_).trans (List.filter_true _)
          intro a _
          simp
  · exact dedupe_pair p q h

/-- C4 (witness): a concrete pair sharing a reference where the later,
longer article replaces the first and inherits its title. -/
theorem c4_consolidation_witness :
    (dedupeProvisions [wit4First, wit4Second]).map (fun x => x.provision_ref) =
      firstSeen ([wit4First, wit4Second].map (fun x => jsTrim x.provision_ref)) ∧
    dedupeProvisions [wit4First, wit4Second] =
      [{ wit4Second with provision_ref := jsTrim wit4First.provision_ref,
                         title := jsOrStr wit4Second.title wit4First.title }] := by
  have h := c4_consolidation [wit4First, wit4Second] wit4First wit4Second (by decide)
  refine ⟨h.1, ?_⟩
  rw [h.2, if_pos (by decide)]

/-- Splitting a literal match across an append boundary. -/
theorem litAt_append (pat : List Char) :
    ∀ (xs l : List Char),
      litAt pat (xs ++ l) =
        (litAt (pat.take xs.length) xs && litAt (pat.drop xs.length) l) := by
  induction pat with
  | nil => intro xs l; simp [litAt]
  | cons p ps ih =>
    intro xs l
    cases xs with
    | nil => simp [litAt]
    | cons x xs =>
      simp only [List.cons_append, List.length_cons, List.take_succ_cons,
        List.drop_succ_cons, litAt, List.append_eq, ih xs l, Bool.and_assoc]

theorem litAt_rfl (pat : List Char) : litAt pat pat = true := by
  induction pat with
  | nil => rfl
  | cons p ps ih => simp [litAt, ih]

theorem litAt_self_append (pat l : List Char) : litAt pat (pat ++ l) = true := by
  rw [litAt_append, List.take_of_length_le (le_refl _),
    List.drop_of_length_le (le_refl _)]
  simp [litAt_rfl, litAt]

theorem cannotStartEli_spec (xs : List Char) (h : cannotStartEli xs = true) :
    ∀ l, litAt eliSlash (xs ++ l) = false := by
  intro l
  unfold cannotStartEli at h
  rw [litAt_append]
  by_cases h5 : 5 ≤ xs.length
  · rw [if_pos h5, Bool.not_eq_true'] at h
    rw [List.take_of_length_le
      (show eliSlash.length ≤ xs.length by
        rw [show eliSlash.length = 5 from by decide]; omega)]
    rw [h, Bool.false_and]
  · rw [if_neg h5, Bool.not_eq_true'] at h
    rw [h, Bool.false_and]

theorem matchJustelUrlAt_none_of_clean (xs : List Char)
    (h : cannotStartEli xs = true) (l : List Char) :
    matchJustelUrlAt (xs ++ l) = none := by
  unfold matchJustelUrlAt
  rw [cannotStartEli_spec xs h l]
  simp

theorem findJustelUrlGo_skip (pre : List Char) (hclean : allSuffixesClean pre = true) :
    ∀ (l : List Char) (fuel : Nat),
      findJustelUrlGo (pre.length + fuel) (pre ++ l) = findJustelUrlGo fuel l := by
  induction pre with
  | nil => intro l fuel; simp
  | cons c cs ih =>
    intro l fuel
    simp only [allSuffixesClean, Bool.and_eq_true] at hclean
    have hm := matchJustelUrlAt_none_of_clean (c :: cs) hclean.1 l
    show findJustelUrlGo (cs.length + 1 + fuel) ((c :: cs) ++ l) = findJustelUrlGo fuel l
    rw [show cs.length + 1 + fuel = (cs.length + fuel) + 1 from by omega]
    rw [show (c :: cs) ++ l = c :: (cs ++ l) from rfl]
    rw [show findJustelUrlGo ((cs.length + fuel) + 1) (c :: (cs ++ l)) =
        (match matchJustelUrlAt (c :: (cs ++ l)) with
         | some p => some p
         | none => findJustelUrlGo (cs.length + fuel) (cs ++ l)) from rfl]
    rw [show matchJustelUrlAt (c :: (cs ++ l)) = matchJustelUrlAt ((c :: cs) ++ l) from rfl]
    rw [hm]
    exact ih hclean.2 l fuel

theorem digitChar_isDigit {d : Nat} (h : d < 10) :
    (Nat.digitChar d).isDigit = true := by
  interval_cases d <;> decide

theorem digitChar_toNat {d : Nat} (h : d < 10) :
    (Nat.digitChar d).toNat = 48 + d := by
  interval_cases d <;> decide

theorem natToDecAux_digits :
    ∀ (fuel n : Nat), n < fuel → ∀ c ∈ natToDecAux fuel n, c.isDigit = true := by
  intro fuel
  induction fuel with
  | zero => intro n h; omega
  | succ fuel ih =>
    intro n h c hc
    unfold natToDecAux at hc
    by_cases h10 : n < 10
    · rw [if_pos h10] at hc
      rw [List.mem_singleton.mp hc]
      exact digitChar_isDigit h10
    · rw [if_neg h10] at hc
      rcases List.mem_append.mp hc with hm | hm
      · exact ih (n / 10) (by omega) c hm
      · rw [List.mem_singleton.mp hm]
        exact digitChar_isDigit (by omega)

theorem digitsToNat_append_one (l : List Char) (c : Char) :
    digitsToNat (l ++ [c]) = digitsToNat l * 10 + (c.toNat - 48) := by
  unfold digitsToNat
  rw [List.foldl_append]
  rfl

theorem digitsToNat_natToDecAux :
    ∀ (fuel n : Nat), n < fuel → digitsToNat (natToDecAux fuel n) = n := by
  intro fuel
  induction fuel with
  | zero => intro n h; omega
  | succ fuel ih =>
    intro n h
    unfold natToDecAux
    by_cases h10 : n < 10
    · rw [if_pos h10]
      show digitsToNat ([] ++ [Nat.digitChar n]) = n
      rw [digitsToNat_append_one, digitChar_toNat h10]
      show 0 * 10 + (48 + n - 48) = n
      omega
    · rw [if_neg h10]
      rw [digitsToNat_append_one, ih (n / 10) (by omega),
        digitChar_toNat (by omega)]
      omega

theorem digitsToNat_natToDec (n : Nat) : digitsToNat (natToDec n) = n :=
  digitsToNat_natToDecAux (n + 1) n (by omega)

theorem natToDec_digits (n : Nat) : ∀ c ∈ natToDec n, c.isDigit = true :=
  natToDecAux_digits (n + 1) n (by omega)

theorem natToDecAux_length :
    ∀ (k fuel n : Nat), n < fuel → 10 ^ k ≤ n → n < 10 ^ (k + 1) →
      (natToDecAux fuel n).length = k + 1 := by
  intro k
  induction k with
  | zero =>
    intro fuel n hf h1 h2
    cases fuel with
    | zero => omega
    | succ fuel =>
      unfold natToDecAux
      rw [if_pos (by simpa using h2)]
      rfl
  | succ k ih =>
    intro fuel n hf h1 h2
    cases fuel with
    | zero => omega
    | succ fuel =>
      have h10 : ¬ n < 10 := by
        have : (10:Nat) ^ 1 ≤ 10 ^ (k + 1) := Nat.pow_le_pow_right (by omega) (by omega)
        simp only [pow_one] at this
        omega
      unfold natToDecAux
      rw [if_neg h10]
      rw [List.length_append]
      have hdiv1 : 10 ^ k ≤ n / 10 := by
        rw [Nat.le_div_iff_mul_le (by omega)]
        calc 10 ^ k * 10 = 10 ^ (k + 1) := by ring
          _ ≤ n := h1
      have hdiv2 : n / 10 < 10 ^ (k + 1) := by
        rw [Nat.div_lt_iff_lt_mul (by omega)]
        calc n < 10 ^ (k + 2) := h2
          _ = 10 ^ (k + 1) * 10 := by ring
      have hdivf : n / 10 < fuel := by
        have := Nat.div_lt_self (show 0 < n by omega) (show 1 < 10 by omega)
        omega
      rw [ih fuel (n / 10) hdivf hdiv1 hdiv2]
      rfl

theorem natToDec_length_four {n : Nat} (h1 : 1000 ≤ n) (h2 : n < 10000) :
    (natToDec n).length = 4 := by
  have := natToDecAux_length 3 (n + 1) n (by omega) (by norm_num; omega) (by norm_num; omega)
  simpa [natToDec] using this

theorem takeWhile_append_stop {p : Char → Bool} :
    ∀ (xs rest : List Char), (∀ c ∈ xs, p c = true) →
      rest.takeWhile p = [] → (xs ++ rest).takeWhile p = xs := by
  intro xs rest hall hstop
  induction xs with
  | nil => simpa using hstop
  | cons x xs ih =>
    rw [List.cons_append, List.takeWhile_cons, hall x (by simp),
      ih (fun c hc => hall c (by simp [hc])), if_pos rfl]

theorem dropWhile_append_stop {p : Char → Bool} :
    ∀ (xs rest : List Char), (∀ c ∈ xs, p c = true) →
      rest.takeWhile p = [] → (xs ++ rest).dropWhile p = rest := by
  intro xs rest hall hstop
  induction xs with
  | nil =>
    cases rest with
    | nil => rfl
    | cons r rs =>
      rw [List.takeWhile_cons] at hstop
      rw [List.nil_append, List.dropWhile_cons]
      split at hstop
      · exact absurd hstop (by simp)
      · rw [if_neg (by assumption)]
  | cons x xs ih =>
    rw [List.cons_append, List.dropWhile_cons, if_pos (hall x (by simp))]
    exact ih (fun c hc => hall c (by simp [hc]))

theorem takeDigits_exact {xs : List Char} (rest : List Char) (k : Nat)
    (hlen : xs.length = k) (hdig : ∀ c ∈ xs, c.isDigit = true) :
    takeDigits (xs ++ rest) k = some (xs, rest) := by
  unfold takeDigits
  rw [List.take_left' hlen, List.drop_left' hlen]
  rw [if_pos]
  rw [Bool.and_eq_true, List.all_eq_true]
  exact ⟨by simp [hlen], hdig⟩

theorem matchJustelUrlAt_canonical
    (seg : List Char) (hseg : seg = loiSeg ∨ seg = wetSeg)
    (y4 mm dd nn : List Char)
    (hy : y4.length = 4) (hyd : ∀ c ∈ y4, c.isDigit = true)
    (hm2 : mm.length = 2) (hmd : ∀ c ∈ mm, c.isDigit = true)
    (hd2 : dd.length = 2) (hdd : ∀ c ∈ dd, c.isDigit = true)
    (hn : nn ≠ []) (hnd : ∀ c ∈ nn, c.isDigit = true) :
    matchJustelUrlAt (eliSlash ++ seg ++ y4 ++ ['/'] ++ mm ++ ['/'] ++ dd ++
        ['/'] ++ nn ++ justelTail) =
      some ⟨digitsToNat y4, mm, dd, nn⟩ := by
  have h5 : eliSlash.length = 5 := by decide
  have h4 : loiSeg.length = 4 := by decide
  have h4w : wetSeg.length = 4 := by decide
  have hjt : List.takeWhile Char.isDigit justelTail = [] := by decide
  have e1 := takeDigits_exact
    ('/' :: (mm ++ ('/' :: (dd ++ ('/' :: (nn ++ justelTail)))))) 4 hy hyd
  have e2 := takeDigits_exact ('/' :: (dd ++ ('/' :: (nn ++ justelTail)))) 2 hm2 hmd
  have e3 := takeDigits_exact ('/' :: (nn ++ justelTail)) 2 hd2 hdd
  have e4 := takeWhile_append_stop nn justelTail hnd hjt
  have e5 : List.drop nn.length (nn ++ justelTail) = justelTail :=
    List.drop_left' rfl
  have e6 : ¬(nn.length = 0) := by
    intro h0
    exact hn (List.length_eq_zero.mp h0)
  have w1 : ∀ X : List Char, litAt loiSeg (wetSeg ++ X) = false := by
    intro X
    rw [litAt_append, h4w,
      show List.take 4 loiSeg = loiSeg from by decide,
      show litAt loiSeg wetSeg = false from by decide, Bool.false_and]
  rcases hseg with rfl | rfl
  · simp only [List.append_assoc, List.singleton_append, List.cons_append,
      List.nil_append, matchJustelUrlAt, litAt_self_append, List.drop_left' h5,
      List.drop_left' h4, e1, e2, e3, e4, e5, e6, litAt_rfl, if_true, if_false]
  · simp only [List.append_assoc, List.singleton_append, List.cons_append,
      List.nil_append, matchJustelUrlAt, litAt_self_append, List.drop_left' h5,
      List.drop_left' h4w, w1, e1, e2, e3, e4, e5, e6, litAt_rfl, if_true,
      if_false, Bool.false_eq_true, ite_false]

theorem findJustelUrlGo_head (fuel : Nat) (c : Char) (cs : List Char)
    (p : UrlParts) (hm : matchJustelUrlAt (c :: cs) = some p) :
    findJustelUrlGo (fuel + 1) (c :: cs) = some p := by
  simp [findJustelUrlGo, hm]

/-- C7: for every canonical content URL built from a 4-digit year,
2-digit month and day strings and a nonempty numeric identifier, the index
extractor's URL decomposition recovers exactly those components, and
rebuilding with `buildJustelUrl` (same language variant) yields the
original URL. -/
theorem c7_url_roundtrip (y : Nat) (mm dd nn : List Char) (lang : JLang)
    (hy1 : 1000 ≤ y) (hy2 : y < 10000)
    (hm2 : mm.length = 2) (hmd : ∀ c ∈ mm, c.isDigit = true)
    (hd2 : dd.length = 2) (hdd : ∀ c ∈ dd, c.isDigit = true)
    (hn : nn ≠ []) (hnd : ∀ c ∈ nn, c.isDigit = true) :
    extractUrlParts (buildJustelUrl y mm dd nn lang) =
      some ⟨y, mm, dd, nn⟩ ∧
    ∀ p : UrlParts, extractUrlParts (buildJustelUrl y mm dd nn lang) = some p →
      buildJustelUrl p.year p.month p.day p.numac lang =
        buildJustelUrl y mm dd nn lang := by
  have hmain : extractUrlParts (buildJustelUrl y mm dd nn lang) =
      some ⟨y, mm, dd, nn⟩ := by
    have hseg : langSeg lang ++ ['/'] = loiSeg ∨ langSeg lang ++ ['/'] = wetSeg := by
      cases lang
      · exact Or.inl (by decide)
      · exact Or.inr (by decide)
    have hcanon := matchJustelUrlAt_canonical (langSeg lang ++ ['/']) hseg
      (natToDec y) mm dd nn (natToDec_length_four hy1 hy2) (natToDec_digits y)
      hm2 hmd hd2 hdd hn hnd
    rw [digitsToNat_natToDec] at hcanon
    have hurl : buildJustelUrl y mm dd nn lang =
        baseUrl ++ (eliSlash ++ (langSeg lang ++ ['/']) ++ natToDec y ++ ['/'] ++
          mm ++ ['/'] ++ dd ++ ['/'] ++ nn ++ justelTail) := by
      simp [buildJustelUrl, List.append_assoc]
    set T := eliSlash ++ (langSeg lang ++ ['/']) ++ natToDec y ++ ['/'] ++
      mm ++ ['/'] ++ dd ++ ['/'] ++ nn ++ justelTail with hT
    obtain ⟨c, cs, hcons⟩ : ∃ c cs, T = c :: cs := by
      cases hc : T with
      | nil =>
        rw [hc] at hcanon
        exact absurd hcanon (by rw [show matchJustelUrlAt [] = none from rfl]; simp)
      | cons c cs => exact ⟨c, cs, rfl⟩
    have hlen : (baseUrl ++ T).length = baseUrl.length + (cs.length + 1) := by
      rw [List.length_append, hcons]
      rfl
    unfold extractUrlParts
    rw [hurl, hlen, findJustelUrlGo_skip baseUrl (by decide)]
    rw [hcons]
    exact findJustelUrlGo_head cs.length c cs _ (by rw [← hcons]; exact hcanon)
  refine ⟨hmain, ?_⟩
  intro p hp
  rw [hmain] at hp
  cases hp
  rfl

/-- C7 (witness): a concrete URL round-trips. -/
theorem c7_url_roundtrip_witness :
    extractUrlParts (buildJustelUrl 2023 wit7Month wit7Day wit7Numac JLang.fr) =
      some ⟨2023, wit7Month, wit7Day, wit7Numac⟩ :=
  (c7_url_roundtrip 2023 wit7Month wit7Day wit7Numac JLang.fr
    (by norm_num) (by norm_num) (by decide) (by decide) (by decide) (by decide)
    (by decide) (by decide)).1

/-! ### C2: cleanArticleHtml idempotence analysis -/

theorem scanRepl_id (m : List Char → Option (List Char × Nat))
    (tr : Char → Bool) (hm : ∀ c cs, tr c = false → m (c :: cs) = none) :
    ∀ (l : List Char) (fuel : Nat), l.length ≤ fuel →
      (∀ c ∈ l, tr c = false) → scanRepl m fuel l = l := by
  intro l
  induction l with
  | nil => intro fuel _ _; cases fuel <;> rfl
  | cons c cs ih =>
    intro fuel hf hall
    cases fuel with
    | zero => simp at hf
    | succ fuel =>
      show (match m (c :: cs) with
        | some (repl, k) => repl ++ scanRepl m fuel (cs.drop (k - 1))
        | none => c :: scanRepl m fuel cs) = c :: cs
      rw [hm c cs (hall c (by simp))]
      rw [ih fuel (by simpa using hf) (fun x hx => hall x (by simp [hx]))]

theorem matchOpenA_none (c : Char) (cs : List Char) (h : c ≠ '<') :
    matchOpenA (c :: cs) = none := by
  unfold matchOpenA
  split
  · rename_i heq
    injection heq with h1 _
    exact absurd h1 h
  · rfl

theorem matchCloseA_none (c : Char) (cs : List Char) (h : c ≠ '<') :
    matchCloseA (c :: cs) = none := by
  unfold matchCloseA
  split
  · rename_i heq
    injection heq with h1 _
    exact absurd h1 h
  · rfl

theorem matchBr_none (c : Char) (cs : List Char) (h : c ≠ '<') :
    matchBr (c :: cs) = none := by
  unfold matchBr
  split
  · rename_i heq
    injection heq with h1 _
    exact absurd h1 h
  · rfl

theorem matchHeading_none (c : Char) (cs : List Char) (h : c ≠ '<') :
    matchHeading (c :: cs) = none := by
  unfold matchHeading
  split
  · rename_i heq
    injection heq with h1 _
    exact absurd h1 h
  · rfl

theorem matchAnyTag_none (c : Char) (cs : List Char) (h : c ≠ '<') :
    matchAnyTag (c :: cs) = none := by
  unfold matchAnyTag
  split
  · rename_i heq
    injection heq with h1 _
    exact absurd h1 h
  · rfl

theorem matchNumEntity_none (c : Char) (cs : List Char) (h : c ≠ '&') :
    matchNumEntity (c :: cs) = none := by
  unfold matchNumEntity
  split
  · rename_i heq
    injection heq with h1 _
    exact absurd h1 h
  · rfl

theorem matchLit_none (p : Char) (ps repl : List Char) (c : Char)
    (cs : List Char) (h : c ≠ p) : matchLit (p :: ps) repl (c :: cs) = none := by
  unfold matchLit
  rw [if_neg]
  intro hc
  unfold litAt at hc
  rw [Bool.and_eq_true] at hc
  have h1 : p = c := of_decide_eq_true hc.1
  exact h h1.symm

theorem runRepl_id_lt (m : List Char → Option (List Char × Nat))
    (hm : ∀ c cs, c ≠ '<' → m (c :: cs) = none)
    (l : List Char) (hl : ∀ c ∈ l, c ≠ '<') : runRepl m l = l := by
  refine scanRepl_id m (fun c => c = '<') ?_ l l.length (le_refl _) ?_
  · intro c cs hc
    exact hm c cs (by simpa using hc)
  · intro c hc
    simpa using hl c hc

theorem runRepl_id_amp (m : List Char → Option (List Char × Nat))
    (hm : ∀ c cs, c ≠ '&' → m (c :: cs) = none)
    (l : List Char) (hl : ∀ c ∈ l, c ≠ '&') : runRepl m l = l := by
  refine scanRepl_id m (fun c => c = '&') ?_ l l.length (le_refl _) ?_
  · intro c cs hc
    exact hm c cs (by simpa using hc)
  · intro c hc
    simpa using hl c hc

theorem decodeEntities_id (l : List Char) (hl : ∀ c ∈ l, c ≠ '&') :
    decodeEntities l = l := by
  unfold decodeEntities
  have htbl : ∀ tbl : List (List Char × List Char),
      (∀ pr ∈ tbl, pr.1.head? = some '&') →
      tbl.foldl (fun acc pr => runRepl (matchLit pr.1 pr.2) acc) l = l := by
    intro tbl
    induction tbl with
    | nil => intro _; rfl
    | cons pr tbl ih =>
      intro hall
      simp only [List.foldl]
      have hpr := hall pr (by simp)
      obtain ⟨p, ps, hps⟩ : ∃ p ps, pr.1 = p :: ps := by
        cases hp : pr.1 with
        | nil => rw [hp] at hpr; simp at hpr
        | cons p ps => exact ⟨p, ps, rfl⟩
      have hamp : p = '&' := by
        rw [hps] at hpr
        simpa using hpr
      have hid : runRepl (matchLit pr.1 pr.2) l = l := by
        refine runRepl_id_amp _ ?_ l hl
        intro c cs hc
        rw [hps, hamp]
        exact matchLit_none '&' ps pr.2 c cs hc
      rw [hid]
      exact ih (fun q hq => hall q (by simp [hq]))
  rw [htbl entityTable (by decide)]
  refine runRepl_id_amp _ ?_ l hl
  intro c cs hc
  exact matchNumEntity_none c cs hc

theorem tagPasses_id (l : List Char) (hl : ∀ c ∈ l, c ≠ '<') :
    runRepl matchAnyTag (runRepl matchHeading (runRepl matchBr
      (runRepl matchCloseA (runRepl matchOpenA l)))) = l := by
  rw [runRepl_id_lt matchOpenA matchOpenA_none l hl,
    runRepl_id_lt matchCloseA matchCloseA_none l hl,
    runRepl_id_lt matchBr matchBr_none l hl,
    runRepl_id_lt matchHeading matchHeading_none l hl,
    runRepl_id_lt matchAnyTag matchAnyTag_none l hl]

theorem dropWhile_head_shape (p : Char → Bool) (l : List Char) :
    l.dropWhile p = [] ∨
      ∃ x xs, l.dropWhile p = x :: xs ∧ p x = false := by
  induction l with
  | nil => exact Or.inl rfl
  | cons c cs ih =>
    rw [List.dropWhile_cons]
    by_cases hc : p c = true
    · rw [if_pos hc]; exact ih
    · rw [if_neg hc]
      exact Or.inr ⟨c, cs, rfl, by simpa using hc⟩

theorem jsTrim_rev (l : List Char) :
    (jsTrim l).reverse = (l.dropWhile isJsWs).reverse.dropWhile isJsWs := by
  unfold jsTrim
  rw [List.reverse_reverse]

theorem dropWhile_decomp (l : List Char) :
    l.dropWhile isJsWs =
      jsTrim l ++ ((l.dropWhile isJsWs).reverse.takeWhile isJsWs).reverse := by
  have h := List.takeWhile_append_dropWhile (p := isJsWs)
    (l := (l.dropWhile isJsWs).reverse)
  have h2 := congrArg List.reverse h
  rw [List.reverse_append, List.reverse_reverse] at h2
  unfold jsTrim
  exact h2.symm

theorem jsTrim_decomp (l : List Char) :
    ∃ pre suf, l = pre ++ jsTrim l ++ suf := by
  refine ⟨l.takeWhile isJsWs,
    ((l.dropWhile isJsWs).reverse.takeWhile isJsWs).reverse, ?_⟩
  rw [List.append_assoc, ← dropWhile_decomp l]
  exact (List.takeWhile_append_dropWhile _ _).symm

theorem mem_jsTrim (l : List Char) (c : Char) (hc : c ∈ jsTrim l) : c ∈ l := by
  obtain ⟨pre, suf, hd⟩ := jsTrim_decomp l
  rw [hd]
  simp [hc]

theorem jsTrim_head_shape (l : List Char) :
    jsTrim l = [] ∨ ∃ x xs, jsTrim l = x :: xs ∧ isJsWs x = false := by
  cases hx : jsTrim l with
  | nil => exact Or.inl rfl
  | cons x xs =>
    right
    refine ⟨x, xs, rfl, ?_⟩
    have hA := dropWhile_decomp l
    rw [hx] at hA
    rcases dropWhile_head_shape isJsWs l with h | ⟨y, ys, hy, hpy⟩
    · rw [h] at hA
      exact absurd hA.symm (by simp)
    · rw [hy] at hA
      have : y = x := by
        have := congrArg (fun t => t.head?) hA
        simpa using this
      rw [← this]
      exact hpy

theorem jsTrim_id (l : List Char)
    (h1 : headNotWs l = true)
    (h2 : headNotWs l.reverse = true) : jsTrim l = l := by
  unfold jsTrim
  have hd1 : l.dropWhile isJsWs = l := by
    cases l with
    | nil => rfl
    | cons c cs =>
      rw [List.dropWhile_cons, if_neg]
      simp only [headNotWs, Bool.not_eq_true'] at h1
      simp [h1]
  rw [hd1]
  have hd2 : l.reverse.dropWhile isJsWs = l.reverse := by
    cases hr : l.reverse with
    | nil => rfl
    | cons c cs =>
      rw [List.dropWhile_cons, if_neg]
      rw [hr] at h2
      simp only [headNotWs, Bool.not_eq_true'] at h2
      simp [h2]
  rw [hd2, List.reverse_reverse]

theorem jsTrim_idem (l : List Char) : jsTrim (jsTrim l) = jsTrim l := by
  rcases jsTrim_head_shape l with h | ⟨x, xs, hx, hpx⟩
  · rw [h]; rfl
  · refine jsTrim_id _ ?_ ?_
    · rw [hx]
      simp [headNotWs, hpx]
    · rw [jsTrim_rev]
      rcases dropWhile_head_shape isJsWs (l.dropWhile isJsWs).reverse with
        h2 | ⟨y, ys, hy, hpy⟩
      · rw [h2]; rfl
      · rw [hy]
        simp [headNotWs, hpy]

theorem splitOnP_head_prefix_tail_mid (p : Char → Bool) :
    ∀ l : List Char, ∀ h t, l.splitOnP p = h :: t →
        h <+: l ∧ ∀ piece ∈ t, piece <:+: l := by
  intro l
  induction l with
  | nil =>
    intro h t he
    rw [List.splitOnP_nil] at he
    injection he with he1 he2
    subst he1
    refine ⟨List.nil_prefix, ?_⟩
    rw [← he2]
    simp
  | cons x xs ih =>
    intro h t he
    rw [List.splitOnP_cons] at he
    by_cases hx : p x = true
    · rw [if_pos hx] at he
      injection he with he1 he2
      subst he1
      refine ⟨List.nil_prefix, ?_⟩
      intro piece hp
      rw [← he2] at hp
      cases hs : xs.splitOnP p with
      | nil => exact absurd hs (List.splitOnP_ne_nil p xs)
      | cons h2 t2 =>
        rw [hs] at hp
        rcases List.mem_cons.mp hp with hp1 | hp2
        · rw [hp1]
          exact List.infix_cons (ih h2 t2 hs).1.isInfix
        · exact List.infix_cons ((ih h2 t2 hs).2 piece hp2)
    · rw [if_neg hx] at he
      cases hs : xs.splitOnP p with
      | nil => exact absurd hs (List.splitOnP_ne_nil p xs)
      | cons h2 t2 =>
        rw [hs] at he
        simp only [List.modifyHead] at he
        injection he with he1 he2
        constructor
        · rw [← he1]
          obtain ⟨t3, ht3⟩ := (ih h2 t2 hs).1
          exact ⟨t3, by rw [List.cons_append, ht3]⟩
        · intro piece hp
          rw [← he2] at hp
          exact List.infix_cons ((ih h2 t2 hs).2 piece hp)

theorem splitOnP_piece_mid (p : Char → Bool) (l piece : List Char)
    (hp : piece ∈ l.splitOnP p) : piece <:+: l := by
  cases hs : l.splitOnP p with
  | nil => exact absurd hs (List.splitOnP_ne_nil p l)
  | cons h t =>
    rw [hs] at hp
    rcases List.mem_cons.mp hp with hp1 | hp2
    · rw [hp1]
      exact (splitOnP_head_prefix_tail_mid p l h t hs).1.isInfix
    · exact (splitOnP_head_prefix_tail_mid p l h t hs).2 piece hp2

theorem splitOn_piece_no_sep (a : Char) :
    ∀ (l piece : List Char), piece ∈ l.splitOn a → a ∉ piece := by
  intro l
  induction l with
  | nil =>
    intro piece hp
    simp only [List.splitOn_nil] at hp
    rw [List.mem_singleton.mp hp]
    simp
  | cons x xs ih =>
    intro piece hp
    unfold List.splitOn at hp ih
    rw [List.splitOnP_cons] at hp
    by_cases hx : (x == a) = true
    · rw [if_pos hx] at hp
      rcases List.mem_cons.mp hp with rfl | hp2
      · simp
      · exact ih piece hp2
    · rw [if_neg hx] at hp
      cases hs : xs.splitOnP (· == a) with
      | nil => exact absurd hs (List.splitOnP_ne_nil _ xs)
      | cons h2 t2 =>
        rw [hs] at hp
        simp only [List.modifyHead] at hp
        rcases List.mem_cons.mp hp with rfl | hp2
        · intro hmem
          rcases List.mem_cons.mp hmem with rfl | hmem2
          · exact absurd (by simp) hx
          · exact ih h2 (by rw [hs]; simp) hmem2
        · exact ih piece (by rw [hs]; simp [hp2])

theorem spacedOk_cons_of (c : Char) (cs : List Char) (hc : c ≠ '\t')
    (hcs : spacedOk cs = true)
    (hsp : c = ' ' → headNotSpTab cs = true) : spacedOk (c :: cs) = true := by
  unfold spacedOk
  rw [if_neg hc]
  by_cases hs : c = ' '
  · rw [if_pos hs, Bool.and_eq_true]
    refine ⟨?_, hcs⟩
    have := hsp hs
    cases cs with
    | nil => rfl
    | cons d ds => simpa [headNotSpTab] using this
  · rw [if_neg hs]
    exact hcs

theorem spacedOk_cons_elim (c : Char) (cs : List Char)
    (h : spacedOk (c :: cs) = true) :
    c ≠ '\t' ∧ spacedOk cs = true ∧ (c = ' ' → headNotSpTab cs = true) := by
  unfold spacedOk at h
  by_cases ht : c = '\t'
  · rw [if_pos ht] at h
    exact absurd h (by simp)
  · rw [if_neg ht] at h
    by_cases hs : c = ' '
    · rw [if_pos hs, Bool.and_eq_true] at h
      refine ⟨ht, h.2, fun _ => ?_⟩
      cases cs with
      | nil => rfl
      | cons d ds => simpa [headNotSpTab] using h.1
    · rw [if_neg hs] at h
      exact ⟨ht, h, fun hc => absurd hc hs⟩

theorem spacedOk_suffix : ∀ (x y : List Char),
    spacedOk (x ++ y) = true → spacedOk y = true := by
  intro x
  induction x with
  | nil => intro y h; exact h
  | cons c cs ih =>
    intro y h
    exact ih y (spacedOk_cons_elim c (cs ++ y) h).2.1

theorem headNotSpTab_append (x y : List Char) (hx : x ≠ []) :
    headNotSpTab (x ++ y) = headNotSpTab x := by
  cases x with
  | nil => exact absurd rfl hx
  | cons c cs => rfl

theorem spacedOk_prefix : ∀ (x y : List Char),
    spacedOk (x ++ y) = true → spacedOk x = true := by
  intro x
  induction x with
  | nil => intro y _; rfl
  | cons c cs ih =>
    intro y h
    obtain ⟨ht, hrest, hsp⟩ := spacedOk_cons_elim c (cs ++ y) h
    refine spacedOk_cons_of c cs ht (ih y hrest) ?_
    intro hc
    cases cs with
    | nil => rfl
    | cons d ds =>
      have := hsp hc
      rwa [headNotSpTab_append (d :: ds) y (by simp)] at this

theorem spacedOk_mid (x l : List Char) (hinf : x <:+: l)
    (h : spacedOk l = true) : spacedOk x = true := by
  obtain ⟨pre, suf, hps⟩ := hinf
  rw [← hps] at h
  exact spacedOk_prefix x suf (spacedOk_suffix pre (x ++ suf) (by rwa [← List.append_assoc]))

theorem spacedOk_glue (a b : List Char) (ha : spacedOk a = true)
    (hb : spacedOk b = true) : spacedOk (a ++ '\n' :: b) = true := by
  induction a with
  | nil =>
    rw [List.nil_append]
    exact spacedOk_cons_of '\n' b (by decide) hb (by intro h; cases h)
  | cons c cs ih =>
    obtain ⟨ht, hrest, hsp⟩ := spacedOk_cons_elim c cs ha
    refine spacedOk_cons_of c (cs ++ '\n' :: b) ht (ih hrest) ?_
    intro hc
    cases cs with
    | nil => rfl
    | cons d ds =>
      rw [headNotSpTab_append (d :: ds) ('\n' :: b) (by simp)]
      exact hsp hc

theorem spTabCollapseAux_cons (c : Char) (cs : List Char) (b : Bool) :
    spTabCollapseAux (c :: cs) b =
      (if isSpTab c then
        (if b then spTabCollapseAux cs true else ' ' :: spTabCollapseAux cs true)
      else c :: spTabCollapseAux cs false) := rfl

theorem spTabCollapseAux_out : ∀ l : List Char,
    (spacedOk (spTabCollapseAux l false) = true ∧
     spacedOk (spTabCollapseAux l true) = true ∧
     headNotSpTab (spTabCollapseAux l true) = true) := by
  intro l
  induction l with
  | nil => exact ⟨rfl, rfl, rfl⟩
  | cons c cs ih =>
    obtain ⟨ih1, ih2, ih3⟩ := ih
    by_cases hc : isSpTab c = true
    · have e1 : spTabCollapseAux (c :: cs) false = ' ' :: spTabCollapseAux cs true := by
        simp [spTabCollapseAux_cons, hc]
      have e2 : spTabCollapseAux (c :: cs) true = spTabCollapseAux cs true := by
        simp [spTabCollapseAux_cons, hc]
      refine ⟨?_, ?_, ?_⟩
      · rw [e1]
        exact spacedOk_cons_of ' ' _ (by decide) ih2 (fun _ => ih3)
      · rw [e2]; exact ih2
      · rw [e2]; exact ih3
    · have e1 : ∀ b, spTabCollapseAux (c :: cs) b = c :: spTabCollapseAux cs false := by
        intro b
        simp [spTabCollapseAux_cons, hc]
      have hok : spacedOk (c :: spTabCollapseAux cs false) = true := by
        refine spacedOk_cons_of c _ ?_ ih1 ?_
        · intro he
          exact hc (by rw [he]; decide)
        · intro he
          exact absurd (by rw [he]; decide) hc
      refine ⟨by rw [e1]; exact hok, by rw [e1]; exact hok, ?_⟩
      rw [e1]
      simpa [headNotSpTab, Bool.not_eq_true'] using
        (by simpa using hc : ¬ isSpTab c = true)

theorem spTabCollapse_spacedOk (l : List Char) :
    spacedOk (spTabCollapse l) = true :=
  (spTabCollapseAux_out l).1

theorem spTabCollapseAux_id : ∀ l : List Char, spacedOk l = true →
    spTabCollapseAux l false = l := by
  intro l
  induction l with
  | nil => intro _; rfl
  | cons c cs ih =>
    intro h
    obtain ⟨ht, hrest, hsp⟩ := spacedOk_cons_elim c cs h
    by_cases hs : c = ' '
    · subst hs
      have e1 : spTabCollapseAux (' ' :: cs) false = ' ' :: spTabCollapseAux cs true := by
        simp [spTabCollapseAux_cons, show isSpTab ' ' = true from rfl]
      rw [e1]
      have hhead := hsp rfl
      have e2 : spTabCollapseAux cs true = spTabCollapseAux cs false := by
        cases cs with
        | nil => rfl
        | cons d ds =>
          have hd : isSpTab d = false := by
            simpa [headNotSpTab, Bool.not_eq_true'] using hhead
          simp [spTabCollapseAux_cons, hd]
      rw [e2, ih hrest]
    · have hcsp : isSpTab c = false := by
        unfold isSpTab
        simp [hs, ht]
      have e1 : spTabCollapseAux (c :: cs) false = c :: spTabCollapseAux cs false := by
        simp [spTabCollapseAux_cons, hcsp]
      rw [e1, ih hrest]

theorem spTabCollapse_id (l : List Char) (h : spacedOk l = true) :
    spTabCollapse l = l :=
  spTabCollapseAux_id l h

theorem collapseBlankGo_cons (fuel : Nat) (c : Char) (cs : List Char) :
    collapseBlankGo (fuel + 1) (c :: cs) =
      (if c = '\n' && (cs.takeWhile isJsWs).contains '\n' then
        '\n' :: collapseBlankGo fuel
          ((((cs.takeWhile isJsWs).reverse.takeWhile (fun x => x ≠ '\n')).reverse)
            ++ cs.dropWhile isJsWs)
      else c :: collapseBlankGo fuel cs) := rfl

theorem keep_drop_suffix (cs : List Char) :
    ∃ pre, cs = pre ++
      ((((cs.takeWhile isJsWs).reverse.takeWhile (fun x => x ≠ '\n')).reverse)
        ++ cs.dropWhile isJsWs) := by
  refine ⟨((cs.takeWhile isJsWs).reverse.dropWhile (fun x => x ≠ '\n')).reverse, ?_⟩
  have h := List.takeWhile_append_dropWhile (p := fun x => x ≠ '\n')
    (l := (cs.takeWhile isJsWs).reverse)
  have h2 := congrArg List.reverse h
  rw [List.reverse_append, List.reverse_reverse] at h2
  rw [← List.append_assoc, h2]
  exact (List.takeWhile_append_dropWhile _ _).symm

theorem cb_spacedOk : ∀ (fuel : Nat) (l : List Char), spacedOk l = true →
    spacedOk (collapseBlankGo fuel l) = true ∧
      (headNotSpTab l = true → headNotSpTab (collapseBlankGo fuel l) = true) := by
  intro fuel
  induction fuel with
  | zero => intro l h; exact ⟨h, fun hh => hh⟩
  | succ fuel ih =>
    intro l h
    cases l with
    | nil => exact ⟨rfl, fun _ => rfl⟩
    | cons c cs =>
      rw [collapseBlankGo_cons]
      by_cases hcond : (c = '\n' && (cs.takeWhile isJsWs).contains '\n') = true
      · rw [if_pos hcond]
        obtain ⟨pre, hpre⟩ := keep_drop_suffix cs
        have hsufOk : spacedOk
            ((((cs.takeWhile isJsWs).reverse.takeWhile (fun x => x ≠ '\n')).reverse)
              ++ cs.dropWhile isJsWs) = true := by
          refine spacedOk_suffix pre _ ?_
          rw [← hpre]
          exact (spacedOk_cons_elim c cs h).2.1
        refine ⟨?_, fun _ => rfl⟩
        refine spacedOk_cons_of '\n' _ (by decide) (ih _ hsufOk).1 ?_
        intro hcontra
        cases hcontra
      · rw [if_neg hcond]
        obtain ⟨ht, hrest, hsp⟩ := spacedOk_cons_elim c cs h
        refine ⟨?_, ?_⟩
        · refine spacedOk_cons_of c _ ht (ih cs hrest).1 ?_
          intro hs
          exact (ih cs hrest).2 (hsp hs)
        · intro hh
          simpa [headNotSpTab] using (by simpa [headNotSpTab] using hh : ¬ isSpTab c = true)

theorem nlOk_cons_elim (c : Char) (cs : List Char)
    (h : nlOk (c :: cs) = true) :
    nlOk cs = true ∧ (c = '\n' → headNotWs cs = true) := by
  cases cs with
  | nil => exact ⟨rfl, fun _ => rfl⟩
  | cons d ds =>
    have he : nlOk (c :: d :: ds) =
        ((if c = '\n' then !(isJsWs d) else true) && nlOk (d :: ds)) := rfl
    rw [he, Bool.and_eq_true] at h
    refine ⟨h.2, fun hc => ?_⟩
    rw [if_pos hc] at h
    simpa [headNotWs] using h.1

theorem collapseBlankGo_id : ∀ (l : List Char) (fuel : Nat),
    l.length ≤ fuel → nlOk l = true → collapseBlankGo fuel l = l := by
  intro l
  induction l with
  | nil => intro fuel _ _; cases fuel <;> rfl
  | cons c cs ih =>
    intro fuel hf hnl
    cases fuel with
    | zero => simp at hf
    | succ fuel =>
      rw [collapseBlankGo_cons]
      obtain ⟨hrest, hhead⟩ := nlOk_cons_elim c cs hnl
      have hcond : (c = '\n' && (cs.takeWhile isJsWs).contains '\n') = false := by
        by_cases hc : c = '\n'
        · have hw := hhead hc
          have : (cs.takeWhile isJsWs) = [] := by
            cases cs with
            | nil => rfl
            | cons d ds =>
              rw [List.takeWhile_cons, if_neg]
              simpa [headNotWs, Bool.not_eq_true'] using hw
          rw [this]
          simp
        · simp [hc]
      rw [hcond]
      simp only [Bool.false_eq_true, if_false]
      rw [ih fuel (by simpa using hf) hrest]

theorem collapseBlank_spacedOk (l : List Char) (h : spacedOk l = true) :
    spacedOk (collapseBlank l) = true :=
  (cb_spacedOk l.length l h).1

theorem collapseBlank_id (l : List Char) (h : nlOk l = true) :
    collapseBlank l = l :=
  collapseBlankGo_id l l.length (le_refl _) h

theorem intercalate_nl_nil : [ '\n' ].intercalate ([] : List (List Char)) = [] := rfl

theorem intercalate_nl_single (a : List Char) : [ '\n' ].intercalate [a] = a := by
  simp [List.intercalate, List.intersperse]

theorem intercalate_nl_cons (a : List Char) (rest : List (List Char))
    (h : rest ≠ []) :
    [ '\n' ].intercalate (a :: rest) = a ++ '\n' :: [ '\n' ].intercalate rest := by
  cases rest with
  | nil => exact absurd rfl h
  | cons b bs => simp [List.intercalate, List.intersperse]

theorem headNotWs_append (x y : List Char) (hx : x ≠ []) :
    headNotWs (x ++ y) = headNotWs x := by
  cases x with
  | nil => exact absurd rfl hx
  | cons c cs => rfl

theorem nlOk_cons_intro (c : Char) (cs : List Char) (hc : c ≠ '\n')
    (h : nlOk cs = true) : nlOk (c :: cs) = true := by
  cases cs with
  | nil => rfl
  | cons d ds =>
    show ((if c = '\n' then !(isJsWs d) else true) && nlOk (d :: ds)) = true
    rw [if_neg hc, Bool.true_and]
    exact h

theorem nlOk_of_no_nl : ∀ a : List Char, '\n' ∉ a → nlOk a = true := by
  intro a
  induction a with
  | nil => intro _; rfl
  | cons c cs ih =>
    intro h
    refine nlOk_cons_intro c cs (fun hc => h (by rw [hc]; simp)) ?_
    exact ih (fun hm => h (by simp [hm]))

theorem nlOk_glue (a b : List Char) (ha : '\n' ∉ a) (hb : nlOk b = true)
    (hhb : headNotWs b = true) : nlOk (a ++ '\n' :: b) = true := by
  induction a with
  | nil =>
    rw [List.nil_append]
    cases b with
    | nil => rfl
    | cons d ds =>
      show ((if '\n' = '\n' then !(isJsWs d) else true) && nlOk (d :: ds)) = true
      rw [if_pos rfl, Bool.and_eq_true]
      exact ⟨by simpa [headNotWs] using hhb, hb⟩
  | cons c cs ih =>
    have hc : c ≠ '\n' := fun hc => ha (by rw [hc]; simp)
    rw [List.cons_append]
    refine nlOk_cons_intro c _ hc ?_
    exact ih (fun hm => ha (by simp [hm]))

theorem intercalate_headNotWs : ∀ L : List (List Char),
    (∀ l ∈ L, l ≠ [] ∧ headNotWs l = true) →
    headNotWs ([ '\n' ].intercalate L) = true := by
  intro L hall
  cases L with
  | nil => rfl
  | cons a rest =>
    have ha := hall a (by simp)
    cases rest with
    | nil =>
      rw [intercalate_nl_single]
      exact ha.2
    | cons b bs =>
      rw [intercalate_nl_cons a (b :: bs) (by simp)]
      rw [headNotWs_append a _ ha.1]
      exact ha.2

theorem spacedOk_intercalate : ∀ L : List (List Char),
    (∀ l ∈ L, spacedOk l = true) →
    spacedOk ([ '\n' ].intercalate L) = true := by
  intro L
  induction L with
  | nil => intro _; rfl
  | cons a rest ih =>
    intro hall
    cases rest with
    | nil =>
      rw [intercalate_nl_single]
      exact hall a (by simp)
    | cons b bs =>
      rw [intercalate_nl_cons a (b :: bs) (by simp)]
      refine spacedOk_glue a _ (hall a (by simp)) ?_
      exact ih (fun l hl => hall l (by simp [List.mem_cons.mp hl]))

theorem nlOk_intercalate : ∀ L : List (List Char),
    (∀ l ∈ L, '\n' ∉ l ∧ l ≠ [] ∧ headNotWs l = true) →
    nlOk ([ '\n' ].intercalate L) = true := by
  intro L
  induction L with
  | nil => intro _; rfl
  | cons a rest ih =>
    intro hall
    cases rest with
    | nil =>
      rw [intercalate_nl_single]
      exact nlOk_of_no_nl a (hall a (by simp)).1
    | cons b bs =>
      rw [intercalate_nl_cons a (b :: bs) (by simp)]
      refine nlOk_glue a _ (hall a (by simp)).1 ?_ ?_
      · exact ih (fun l hl => hall l (by simp [List.mem_cons.mp hl]))
      · refine intercalate_headNotWs (b :: bs) ?_
        intro l hl
        have := hall l (by simp [List.mem_cons.mp hl])
        exact ⟨this.2.1, this.2.2⟩

theorem trimJoin_lines_spec (z piece : List Char)
    (hp : piece ∈ ((z.splitOn '\n').map jsTrim).filter (fun s => !s.isEmpty)) :
    piece ≠ [] ∧ '\n' ∉ piece ∧ jsTrim piece = piece ∧
      headNotWs piece = true ∧ (spacedOk z = true → spacedOk piece = true) := by
  obtain ⟨hmem, hne⟩ := List.mem_filter.mp hp
  obtain ⟨m, hm, hjm⟩ := List.mem_map.mp hmem
  have hpne : piece ≠ [] := by
    intro h0
    rw [h0] at hne
    simp at hne
  refine ⟨hpne, ?_, ?_, ?_, ?_⟩
  · intro hnl
    have : '\n' ∈ m := mem_jsTrim m '\n' (by rw [hjm]; exact hnl)
    exact splitOn_piece_no_sep '\n' z m hm this
  · rw [← hjm]
    exact jsTrim_idem m
  · rcases jsTrim_head_shape m with h | ⟨x, xs, hx, hpx⟩
    · rw [← hjm] at hpne
      exact absurd h hpne
    · rw [← hjm, hx]
      simp [headNotWs, hpx]
  · intro hz
    have hinf1 : m <:+: z := splitOnP_piece_mid _ z m hm
    have hinf2 : piece <:+: m := by
      obtain ⟨pre, suf, hd⟩ := jsTrim_decomp m
      refine ⟨pre, suf, ?_⟩
      rw [← hjm]
      exact hd.symm
    exact spacedOk_mid piece z (hinf2.trans hinf1) hz

theorem trimJoin_out_facts (z : List Char) (hz : spacedOk z = true) :
    spacedOk (trimJoinLines z) = true ∧ nlOk (trimJoinLines z) = true ∧
      trimJoinLines (trimJoinLines z) = trimJoinLines z := by
  unfold trimJoinLines
  set L := ((z.splitOn '\n').map jsTrim).filter (fun s => !s.isEmpty) with hL
  have hspec : ∀ piece ∈ L, piece ≠ [] ∧ '\n' ∉ piece ∧ jsTrim piece = piece ∧
      headNotWs piece = true ∧ (spacedOk z = true → spacedOk piece = true) :=
    fun piece hp => trimJoin_lines_spec z piece hp
  refine ⟨?_, ?_, ?_⟩
  · exact spacedOk_intercalate L (fun l hl => (hspec l hl).2.2.2.2 hz)
  · refine nlOk_intercalate L ?_
    intro l hl
    exact ⟨(hspec l hl).2.1, (hspec l hl).1, (hspec l hl).2.2.2.1⟩
  · by_cases hLe : L = []
    · rw [hLe]
      rfl
    · have hsplit : ([ '\n' ].intercalate L).splitOn '\n' = L := by
        obtain ⟨a, rest, har⟩ : ∃ a rest, L = a :: rest := by
          cases hc : L with
          | nil => exact absurd hc hLe
          | cons a rest => exact ⟨a, rest, rfl⟩
        rw [har]
        refine List.splitOn_intercalate (a :: rest) '\n' ?_ (by simp)
        intro l hl
        rw [← har] at hl
        exact (hspec l hl).2.1
      rw [hsplit]
      have hmap : L.map jsTrim = L := by
        refine (List.map_congr_left ?_).trans (List.map_id L)
        intro l hl
        show jsTrim l = id l
        exact (hspec l hl).2.2.1
      rw [hmap]
      have hfil : L.filter (fun s => !s.isEmpty) = L := by
        rw [List.filter_eq_self]
        intro l hl
        have := (hspec l hl).1
        simpa using this
      rw [hfil]

set_option maxRecDepth 40000 in
/-- C2 (counterexample): `cleanArticleHtml` is not idempotent — entity
decoding runs after tag stripping, so `&lt;a&gt;x` becomes `<a>x`, which a
second pass strips to `x`. -/
theorem c2_not_idempotent :
    cleanArticleHtml (cleanArticleHtml cex2Input) ≠ cleanArticleHtml cex2Input := by
  decide

/-- C2 (amended): `cleanArticleHtml` is idempotent on every input whose
cleaned output contains no `<` and no `&` — on such outputs every
tag-stripping and entity-decoding pass is the identity, and the
whitespace normal form is stable; in general a second application can
differ, because entity decoding can materialize new markup. -/
theorem c2_idempotent_when_stable (s : List Char)
    (h1 : '<' ∉ cleanArticleHtml s) (h2 : '&' ∉ cleanArticleHtml s) :
    cleanArticleHtml (cleanArticleHtml s) = cleanArticleHtml s := by
  have hzOk : spacedOk (collapseBlank (spTabCollapse (decodeEntities
      (runRepl matchAnyTag (runRepl matchHeading (runRepl matchBr
        (runRepl matchCloseA (runRepl matchOpenA s)))))))) = true :=
    collapseBlank_spacedOk _ (spTabCollapse_spacedOk _)
  have hfacts := trimJoin_out_facts _ hzOk
  have htf1 : spacedOk (cleanArticleHtml s) = true := by
    unfold cleanArticleHtml
    exact hfacts.1
  have htf2 : nlOk (cleanArticleHtml s) = true := by
    unfold cleanArticleHtml
    exact hfacts.2.1
  have htf3 : trimJoinLines (cleanArticleHtml s) = cleanArticleHtml s := by
    conv_lhs => unfold cleanArticleHtml
    conv_rhs => unfold cleanArticleHtml
    exact hfacts.2.2
  have hlt : ∀ c ∈ cleanArticleHtml s, c ≠ '<' := fun c hc he => h1 (he ▸ hc)
  have hamp : ∀ c ∈ cleanArticleHtml s, c ≠ '&' := fun c hc he => h2 (he ▸ hc)
  have key : ∀ t : List Char, (∀ c ∈ t, c ≠ '<') → (∀ c ∈ t, c ≠ '&') →
      spacedOk t = true → nlOk t = true → trimJoinLines t = t →
      cleanArticleHtml t = t := by
    intro t ha hb hc hd he
    unfold cleanArticleHtml
    rw [tagPasses_id t ha, decodeEntities_id t hb, spTabCollapse_id t hc,
      collapseBlank_id t hd]
    exact he
  exact key (cleanArticleHtml s) hlt hamp htf1 htf2 htf3

set_option maxRecDepth 40000 in
/-- C2 (witness): a concrete input whose cleaned output is markup-free,
on which cleaning is idempotent. -/
theorem c2_idempotent_when_stable_witness :
    '<' ∉ cleanArticleHtml wit2Input ∧ '&' ∉ cleanArticleHtml wit2Input ∧
    cleanArticleHtml (cleanArticleHtml wit2Input) = cleanArticleHtml wit2Input :=
  ⟨by decide, by decide,
    c2_idempotent_when_stable wit2Input (by decide) (by decide)⟩
